import Mathlib

/-!
Verification of the django-weebly synchronization layer.

Shallow embedding of `weebly/util.py` (`update_list_of`,
`update_object_from_data`), `weebly/models.py` (`weebly_request_paginated`,
`__handle_response`, `check_still_valid`, `WeeblyPaymentNotification`) and
`weebly/refresh.py` (`refresh_store_categories` and its
`parent_category_func`).  Django rows become explicit records keyed by a
primary key, a related manager becomes a list of rows, and the HTTP layer
becomes oracle functions supplying the per-request outcomes.
-/

namespace Weebly

/-- A Python-level value as it appears in Weebly JSON data and Django model
fields: `None`, integers, strings, booleans, and references to other model
rows (foreign keys, identified by primary key). -/
inductive Val where
  | vnone : Val
  | vint : Int → Val
  | vstr : String → Val
  | vbool : Bool → Val
  | vref : Nat → Val
deriving DecidableEq, Repr

/-- Python truthiness (`if not x`). -/
def Val.falsy : Val → Bool
  | .vnone => true
  | .vint n => n == 0
  | .vstr s => s == ""
  | .vbool b => !b
  | .vref _ => false

/-- Parse a run of decimal digits, the unsigned part of Python `int(str)`:
`none` when the run is empty or a non-digit occurs. -/
def digitsToNat (cs : List Char) : Option Nat :=
  if cs.isEmpty then none
  else
    cs.foldl
      (fun acc c =>
        match acc with
        | none => none
        | some n => if c.isDigit then some (n * 10 + (c.toNat - 48)) else none)
      (some 0)

/-- Python `int` on a string: an optional sign followed by decimal digits. -/
def pyStrToInt (s : String) : Option Int :=
  match s.data with
  | '-' :: rest => (digitsToNat rest).map (fun n => -(n : Int))
  | '+' :: rest => (digitsToNat rest).map (fun n => (n : Int))
  | cs => (digitsToNat cs).map (fun n => (n : Int))

/-- Python `int(x)`: integers stay, booleans coerce to 0 or 1, decimal strings
parse; `None` and non-numeric strings raise (`none`). -/
def pyToInt : Val → Option Int
  | .vint n => some n
  | .vbool b => some (if b then 1 else 0)
  | .vstr s => pyStrToInt s
  | .vnone => none
  | .vref _ => none

/-- Python `==` between a field value and an integer id (also the dict-key
equality used by `elem_id not in data_elems`): `int` compares numerically and
`bool` is an `int` in Python. -/
def valEqInt : Val → Int → Bool
  | .vint m, n => m == n
  | .vbool b, n => (if b then (1 : Int) else 0) == n
  | _, _ => false

/-- Insert or update a key in an association list, keeping the position of an
existing key: the behaviour of `OrderedDict` assignment. -/
def odInsert {κ β : Type} [DecidableEq κ] : List (κ × β) → κ → β → List (κ × β)
  | [], k, v => [(k, v)]
  | (k', v') :: rest, k, v =>
    if k' = k then (k, v) :: rest else (k', v') :: odInsert rest k v

/-- A persisted Django model row: a primary key plus named field values. -/
structure Elem where
  pk : Nat
  fields : List (String × Val)
deriving DecidableEq, Repr

/-- `getattr(obj, name)`: look a field up; an unset field reads as `None`. -/
def getattr (e : Elem) (name : String) : Val :=
  match e.fields.lookup name with
  | some v => v
  | none => .vnone

/-- `setattr(obj, name, val)`; the primary key is untouched. -/
def setattr (e : Elem) (name : String) (v : Val) : Elem :=
  { e with fields := odInsert e.fields name v }

/-- One JSON object of a Weebly API response. -/
abbrev Data := List (String × Val)

/-- `data[name]` (the claims only touch data where the mapped keys are
present; a missing key reads as `None` here, where Python would raise). -/
def dataGet (d : Data) (name : String) : Val :=
  match d.lookup name with
  | some v => v
  | none => .vnone

/-- The rows of one related collection, in insertion order. -/
abbrev Table := List Elem

/-- `elem.delete()`: remove the row with the given primary key. -/
def dbDelete (st : Table) (p : Nat) : Table :=
  st.filter (fun e => e.pk != p)

/-- `elem.save()` on an object that may or may not be persisted yet: update
the row with the same primary key, or append a fresh row. -/
def dbSave (st : Table) (e : Elem) : Table :=
  if st.any (fun x => x.pk == e.pk) then
    st.map (fun x => if x.pk == e.pk then e else x)
  else st ++ [e]

/-- A transform function of a `properties_mapping` entry.  In the source these
are closures that may query the database (`parent_category_func`) and append
to a `missing_cats` list of the enclosing scope, so a transform here reads the
current table and threads the list of missing ids. -/
def Transform := Val → Table → List Int → Val × List Int

/-- A `properties_mapping` entry: data property name, model property name,
optional transform. -/
abbrev Mapping := String × String × Option Transform

/-- A pure, state-independent transform: the common case (`unescape_func`,
`url_func`, `as_int`, ...). -/
def pureT (f : Val → Val) : Transform := fun v _ missing => (f v, missing)

/-- A `properties_mapping` entry whose transform is pure. -/
abbrev PMapping := String × String × Option (Val → Val)

/-- View a pure `properties_mapping` as a general one. -/
def liftPM (pm : List PMapping) : List Mapping :=
  pm.map (fun m => (m.1, m.2.1, m.2.2.map pureT))

/-- The value a pure mapping entry stores for a data value. -/
def applyP (f : Option (Val → Val)) (v : Val) : Val :=
  match f with
  | some g => g v
  | none => v

/-- `util.update_object_from_data`: update `obj` from the data according to
`properties_mapping` and report whether the object must be saved; does NOT
save.  `table` and `missing` carry the environment of stateful transform
closures. -/
def update_object_from_data (obj : Elem) (pm : List Mapping) (data : Data)
    (table : Table) (missing : List Int) : Elem × Bool × List Int :=
  match pm with
  | [] => (obj, false, missing)
  | (data_property, obj_property, transform_func) :: rest =>
    let obj_val := getattr obj obj_property
    let dm : Val × List Int :=
      match transform_func with
      | some f => f (dataGet data data_property) table missing
      | none => (dataGet data data_property, missing)
    if obj_val ≠ dm.1 then
      let r := update_object_from_data (setattr obj obj_property dm.1) rest data table dm.2
      (r.1, true, r.2.2)
    else
      update_object_from_data obj rest data table dm.2

/-- `update_object_from_data` specialized to pure transforms, where the table
and the missing list are irrelevant. -/
def update_object_pure (obj : Elem) (pm : List PMapping) (data : Data) :
    Elem × Bool :=
  match pm with
  | [] => (obj, false)
  | (dp, op, f) :: rest =>
    let data_val := applyP f (dataGet data dp)
    if getattr obj op ≠ data_val then
      ((update_object_pure (setattr obj op data_val) rest data).1, true)
    else
      update_object_pure obj rest data

/-- Outcome of the first `elem.save()` of a newly created element.  The source
hits `IntegrityError` when a concurrent writer inserted a row with the same id
between the lookup and the save; the oracle decides this per data id and, for
a conflict, provides the concurrently inserted row (`none` when no such row is
there at re-fetch time). -/
inductive SaveOutcome where
  | ok : SaveOutcome
  | integrityError : Option Elem → SaveOutcome

/-- The oracle of a run in which no `IntegrityError` occurs. -/
def okOracle : Int → SaveOutcome := fun _ => .ok

/-- Result of `update_list_of`: the final collection, the next fresh primary
key, the returned `changes` flag, and instrumentation: admin emails sent, the
missing-id list accumulated by stateful transforms, and counts of deleted,
created and modified-existing elements. -/
structure ULResult where
  state : Table
  nextPk : Nat
  changes : Bool
  emails : Nat
  missing : List Int
  deleted : Nat
  created : Nat
  modified : Nat
deriving DecidableEq, Repr

/-- The first loop of `update_list_of`: delete every original element whose id
is not among the data ids.  `pairs` is the `original_elems` snapshot. -/
def deleteLoop (dataIds : List Int) (pairs : List (Val × Elem)) (st : Table)
    (changes : Bool) (deleted : Nat) : Table × Bool × Nat :=
  match pairs with
  | [] => (st, changes, deleted)
  | (elem_id, original_elem) :: rest =>
    if dataIds.any (fun d => valEqInt elem_id d) then
      deleteLoop dataIds rest st changes deleted
    else
      deleteLoop dataIds rest (dbDelete st original_elem.pk) true (deleted + 1)

/-- The second loop of `update_list_of`: per data element, update the matching
element, or create one, re-fetching and falling back to an update on
`IntegrityError`, and emailing the admins when the element is gone even after
the error. -/
def dataLoop (idp : String) (newElem : Elem) (pm : List Mapping)
    (oracle : Int → SaveOutcome) (deleted : Nat) :
    List (Int × Data) → Table → Nat → Bool → Nat → List Int → Nat → Nat →
    ULResult
  | [], st, npk, changes, emails, missing, created, modified =>
    ⟨st, npk, changes, emails, missing, deleted, created, modified⟩
  | (data_id, data_elem) :: rest, st, npk, changes, emails, missing, created, modified =>
    match st.find? (fun e => valEqInt (getattr e idp) data_id) with
    | some elem =>
      let u := update_object_from_data elem pm data_elem st missing
      if u.2.1 then
        dataLoop idp newElem pm oracle deleted rest
          (dbSave st u.1) npk true emails u.2.2 created (modified + 1)
      else
        dataLoop idp newElem pm oracle deleted rest
          st npk changes emails u.2.2 created modified
    | none =>
      let elem0 := setattr newElem idp (.vint data_id)
      let u0 := update_object_from_data elem0 pm data_elem st missing
      match oracle data_id with
      | .ok =>
        let elemNew : Elem := { u0.1 with pk := npk }
        let st1 := st ++ [elemNew]
        let u1 := update_object_from_data elemNew pm data_elem st1 u0.2.2
        dataLoop idp newElem pm oracle deleted rest
          (dbSave st1 u1.1) (npk + 1) true emails u1.2.2 (created + 1) modified
      | .integrityError conc =>
        let stc := match conc with
          | some ce => st ++ [{ ce with pk := npk }]
          | none => st
        let npkc := match conc with
          | some _ => npk + 1
          | none => npk
        match stc.find? (fun e => valEqInt (getattr e idp) data_id) with
        | some elem1 =>
          let u1 := update_object_from_data elem1 pm data_elem stc u0.2.2
          if u1.2.1 then
            dataLoop idp newElem pm oracle deleted rest
              (dbSave stc u1.1) npkc true emails u1.2.2 created (modified + 1)
          else
            dataLoop idp newElem pm oracle deleted rest
              stc npkc changes emails u1.2.2 created modified
        | none =>
          dataLoop idp newElem pm oracle deleted rest
            stc npkc changes (emails + 1) u0.2.2 created modified

/-- Build `data_elems`: an `OrderedDict` keyed by
`int(data_elem[id_property_data])`; fails (`none`, a raised `ValueError`)
when an id does not coerce to `int`. -/
def buildDataElems (idd : String) (json_data : List Data) :
    Option (List (Int × Data)) :=
  json_data.foldl
    (fun acc data_elem =>
      match acc with
      | none => none
      | some od =>
        match pyToInt (dataGet data_elem idd) with
        | none => none
        | some data_id => some (odInsert od data_id data_elem))
    (some [])

/-- Build `original_elems`: an `OrderedDict` keyed by
`getattr(original_elem, id_property_elem)`. -/
def buildOriginalElems (idp : String) (st : Table) : List (Val × Elem) :=
  st.foldl (fun od e => odInsert od (getattr e idp) e) []

/-- `util.update_list_of`: reconcile the related collection `st` against the
`json_data` of an API response.  Build the two ordered dicts, delete originals
missing from the data, then create or update one element per data id, with
`oracle` deciding `IntegrityError` on the first save of a new element. -/
def update_list_of (idp idd : String) (newElem : Elem) (pm : List Mapping)
    (oracle : Int → SaveOutcome) (st : Table) (npk : Nat)
    (json_data : List Data) : Option ULResult :=
  match buildDataElems idd json_data with
  | none => none
  | some data_elems =>
    let original_elems := buildOriginalElems idp st
    let d := deleteLoop (data_elems.map (fun p => p.1)) original_elems st false 0
    some (dataLoop idp newElem pm oracle d.2.2 data_elems d.1 npk d.2.1 0 [] 0 0)

/-- One page request of `weebly_request`: for a page number, the `rv` dict
(`some` = its error message) and the response list. -/
def PageReq (α : Type) := Nat → Option String × List α

/-- The `while True` loop of `weebly_request_paginated`, with explicit fuel;
`none` stands for a run that never reaches a short or failing page. -/
def paginatedAux {α : Type} (req : PageReq α) (limit_count : Nat) :
    Nat → Nat → List α → Option (Option String × List α)
  | 0, _, _ => none
  | fuel + 1, page, response_json =>
    let r := req page
    match r.1 with
    | some e => some (some e, response_json)
    | none =>
      if r.2.length < limit_count then some (none, response_json ++ r.2)
      else paginatedAux req limit_count fuel (page + 1) (response_json ++ r.2)

/-- `WeeblyAuth.weebly_request_paginated`: request consecutive pages starting
at page 1, concatenating the per-page response lists. -/
def weebly_request_paginated {α : Type} (req : PageReq α) (limit_count : Nat)
    (fuel : Nat) : Option (Option String × List α) :=
  paginatedAux req limit_count fuel 1 []

/-- Python `in` on strings: substring test. -/
def strContains (s pat : String) : Bool := decide (pat.data <:+: s.data)

/-- The level of the classification log line of `__handle_response`. -/
inductive LogLevel where
  | warn : LogLevel
  | error : LogLevel
deriving DecidableEq, Repr

/-- `WeeblyAuth.check_still_valid`: set the `is_valid` flag according to
whether the response error mentions `Unknown api key`. -/
def check_still_valid (rv_error : Option String) (is_valid : Bool) : Bool :=
  match rv_error with
  | none => true
  | some e => if strContains e "Unknown api key" then false else is_valid

/-- Outcome of `__handle_response`: the `rv['error']` entry, the level of the
expected-vs-unexpected classification log line when one is emitted, and the
updated `is_valid` flag of the auth. -/
structure HandleRV where
  rv_error : Option String
  classifyLog : Option LogLevel
  is_valid : Bool
deriving DecidableEq, Repr

/-- A response body as far as `__handle_response` reads it: `none` for a body
that is not valid JSON, otherwise the optional `resp_json['error']['message']`. -/
abbrev RespBody := Option (Option String)

/-- `WeeblyAuth.__handle_response`. -/
def handle_response (selfStr action_name : String)
    (expected_errors : List String) (status_code : Nat) (body : RespBody)
    (is_valid : Bool) : HandleRV :=
  match body with
  | none => ⟨some "invalid JSON response", none, is_valid⟩
  | some errField =>
    if status_code == 200 then
      ⟨none, none, check_still_valid none is_valid⟩
    else
      match errField with
      | some resp_error =>
        let rv_error := action_name ++ " - " ++ resp_error
        let msg := rv_error ++ " - " ++ selfStr
        let error_is_expected :=
          (expected_errors ++ ["Unknown api key"]).any (fun e => strContains msg e)
        let rv := "Error " ++ rv_error
        ⟨some rv, some (if error_is_expected then .warn else .error),
          check_still_valid (some rv) is_valid⟩
      | none =>
        let rv := "Error " ++ action_name
        ⟨some rv, none, check_still_valid (some rv) is_valid⟩

/-- Half-even rounding to an integer, the rounding of Python
`Decimal.quantize`. -/
def roundHalfEven (q : ℚ) : ℤ :=
  if q - ⌊q⌋ < 1 / 2 then ⌊q⌋
  else if q - ⌊q⌋ > 1 / 2 then ⌊q⌋ + 1
  else if Even ⌊q⌋ then ⌊q⌋ else ⌊q⌋ + 1

/-- Modelled from the spec: `to_decimal(x, 2)` comes from the external
`marto_python` helper library, which is not part of this source tree; per its
use in `pre_save` and in the test expectations it quantizes to two decimal
places (like `Decimal.quantize`, half-even).  In particular
`to_decimal(0.3, 2) = 0.30 = 3/10`. -/
def to_decimal2 (q : ℚ) : ℚ := (roundHalfEven (q * 100) : ℚ) / 100

/-- A `WeeblyPaymentNotification` row, restricted to the fields `notify` and
`pre_save` touch. -/
structure PaymentNotif where
  gross_amount : ℚ
  payable_amount : ℚ
  notified_to_weebly : Bool
  notified_to_weebly_on : Option Nat
deriving DecidableEq, Repr

/-- `WeeblyPaymentNotification.pre_save`: recompute `payable_amount` as
`to_decimal(gross_amount * to_decimal(0.3, 2), 2)`. -/
def pre_save (n : PaymentNotif) : PaymentNotif :=
  { n with payable_amount := to_decimal2 (n.gross_amount * to_decimal2 (3 / 10)) }

/-- Modelled from the spec: the signal wiring that connects `pre_save` to
every save of a `WeeblyPaymentNotification` lives outside this source tree
(only the hook itself and the tests relying on it are here); saving a row
therefore runs `pre_save` first and then persists the row. -/
def pn_save (n : PaymentNotif) : PaymentNotif := pre_save n

/-- Result of `WeeblyPaymentNotification.notify`: the updated row, the
returned `rv` (`some` = its error entry), and the number of outward payment
requests made. -/
structure NotifyResult where
  st : PaymentNotif
  rv_error : Option String
  requests : Nat
deriving DecidableEq, Repr

/-- `WeeblyPaymentNotification.notify`.  `auth_is_valid` is the validity of
the default auth of the site, `has_default_auth` whether the
`DEFAULT_WEEBLY_AUTH` setting names a fallback auth, `req_error` the outcome
of the payment-notification request, and `now` the current time. -/
def notify (n : PaymentNotif) (auth_is_valid has_default_auth : Bool)
    (req_error : Option String) (now : Nat) : NotifyResult :=
  if n.notified_to_weebly then
    ⟨n, some "trying to notify an already notified payment", 0⟩
  else if n.gross_amount == 0 then
    ⟨pn_save { n with notified_to_weebly := true }, none, 0⟩
  else if !auth_is_valid && !has_default_auth then
    ⟨n, some "Invalid weebly auth", 0⟩
  else
    match req_error with
    | none =>
      ⟨pn_save { n with notified_to_weebly := true,
                        notified_to_weebly_on := some now }, none, 1⟩
    | some e => ⟨n, some e, 1⟩

/-- `refresh.parent_category_func`, a closure of `refresh_store_categories`:
resolve a `parent_category_id` against the store categories of the site,
recording ids that do not resolve in `missing_cats`.  (A truthy id that does
not coerce to `int` raises in the source; no claim touches that case and it
reads as `None` here.) -/
def parent_category_func (table : Table) (missing : List Int)
    (parent_category_id : Val) : Val × List Int :=
  if parent_category_id.falsy then (.vnone, missing)
  else
    match pyToInt parent_category_id with
    | none => (.vnone, missing)
    | some pcid =>
      match table.find? (fun e => valEqInt (getattr e "category_id") pcid) with
      | some parent_cat => (.vref parent_cat.pk, missing)
      | none => (.vnone, missing ++ [pcid])

/-- The `properties_mapping` of `refresh_store_categories`; the name transform
(`unescape_func_not_null`) is abstracted as an arbitrary pure function. -/
def catPm (nameTf : Val → Val) : List Mapping :=
  [("name", "name", some (pureT nameTf)),
   ("parent_category_id", "parent_category",
    some (fun v table missing => parent_category_func table missing v))]

/-- Result of the reconciliation loop of `refresh_store_categories`: the final
collection, the next fresh pk, the `changes` flag, integrity-error admin
emails, the `missing_cats` list of each executed pass, and whether the
already-3-times-looping admin alert was emailed. -/
structure CatLoopResult where
  state : Table
  nextPk : Nat
  changes : Bool
  emails : Nat
  missingLog : List (List Int)
  loop_email : Bool
deriving DecidableEq, Repr

/-- The `while True` loop of `refresh_store_categories`: run `update_list_of`
with a fresh `missing_cats`, stop as soon as nothing was missing, and alert
the admins and stop after the third pass.  `fuel` is the number of additional
passes the `loops == 3` check still allows. -/
def catLoopAux (newElem : Elem) (nameTf : Val → Val)
    (oracle : Int → SaveOutcome) (response_json : List Data) :
    Nat → Table → Nat → Bool → Nat → List (List Int) → Option CatLoopResult
  | 0, st, npk, changes, emails, logAcc =>
    match update_list_of "category_id" "category_id" newElem (catPm nameTf)
        oracle st npk response_json with
    | none => none
    | some r =>
      if r.missing.isEmpty then
        some ⟨r.state, r.nextPk, changes || r.changes, emails + r.emails,
          logAcc ++ [r.missing], false⟩
      else
        -- loops == 3: alert the admins and break
        some ⟨r.state, r.nextPk, changes || r.changes, emails + r.emails,
          logAcc ++ [r.missing], true⟩
  | fuel + 1, st, npk, changes, emails, logAcc =>
    match update_list_of "category_id" "category_id" newElem (catPm nameTf)
        oracle st npk response_json with
    | none => none
    | some r =>
      if r.missing.isEmpty then
        some ⟨r.state, r.nextPk, changes || r.changes, emails + r.emails,
          logAcc ++ [r.missing], false⟩
      else
        catLoopAux newElem nameTf oracle response_json fuel r.state r.nextPk
          (changes || r.changes) (emails + r.emails) (logAcc ++ [r.missing])

/-- `refresh_store_categories` after a successful paginated request: `loops`
starts at 0 and the loop breaks at `loops == 3`, so at most two further
passes follow the first one. -/
def refresh_store_categories_loop (newElem : Elem) (nameTf : Val → Val)
    (oracle : Int → SaveOutcome) (response_json : List Data) (st : Table)
    (npk : Nat) : Option CatLoopResult :=
  catLoopAux newElem nameTf oracle response_json 2 st npk false 0 []

/-- The data entry whose id the element matches, if any. -/
def findData (idp : String) (de : List (Int × Data)) (e : Elem) :
    Option (Int × Data) :=
  de.find? (fun p => valEqInt (getattr e idp) p.1)

/-- The element as the data loop leaves it: updated in place when its id is
among the data ids. -/
def updIfMatch (idp : String) (pm : List PMapping) (de : List (Int × Data))
    (e : Elem) : Elem :=
  match findData idp de e with
  | some p => (update_object_pure e pm p.2).1
  | none => e

/-- Whether the data loop saves the element as a modified existing one. -/
def modIfMatch (idp : String) (pm : List PMapping) (de : List (Int × Data))
    (e : Elem) : Bool :=
  match findData idp de e with
  | some p => (update_object_pure e pm p.2).2
  | none => false

/-- Whether some element of the table matches the data id. -/
def occOf (idp : String) (st : Table) (d : Int) : Bool :=
  st.any (fun e => valEqInt (getattr e idp) d)

/-- The elements the data loop creates: one per data id without a matching
element, carrying consecutive fresh primary keys. -/
def createdList (idp : String) (newElem : Elem) (pm : List PMapping) :
    List (Int × Data) → (Int → Bool) → Nat → List Elem
  | [], _, _ => []
  | (d, data) :: rest, occ, npk =>
    if occ d then createdList idp newElem pm rest occ npk
    else
      { (update_object_pure (setattr newElem idp (.vint d)) pm data).1 with
          pk := npk } :: createdList idp newElem pm rest occ (npk + 1)

/-- Every mapped property of the element equals the transform-applied data
value. -/
def propsEqual (pm : List PMapping) (e : Elem) (data : Data) : Prop :=
  ∀ m ∈ pm, getattr e m.2.1 = applyP m.2.2 (dataGet data m.1)

/-! ### Association list and field lemmas -/

theorem lookup_odInsert_self {κ β : Type} [DecidableEq κ]
    (l : List (κ × β)) (k : κ) (v : β) :
    (odInsert l k v).lookup k = some v := by
  induction l with
  | nil => simp [odInsert, List.lookup_cons]
  | cons h t ih =>
    obtain ⟨k', v'⟩ := h
    by_cases hk : k' = k
    · simp [odInsert, hk, List.lookup_cons]
    · simp only [odInsert, if_neg hk, List.lookup_cons,
        beq_false_of_ne (Ne.symm hk)]
      exact ih

theorem lookup_odInsert_ne {κ β : Type} [DecidableEq κ]
    (l : List (κ × β)) (k k' : κ) (v : β) (h : k' ≠ k) :
    (odInsert l k v).lookup k' = l.lookup k' := by
  induction l with
  | nil => simp [odInsert, List.lookup_cons, beq_false_of_ne h]
  | cons hd t ih =>
    obtain ⟨k0, v0⟩ := hd
    by_cases hk : k0 = k
    · subst hk
      simp [odInsert, List.lookup_cons, beq_false_of_ne h]
    · simp only [odInsert, if_neg hk, List.lookup_cons]
      by_cases hq : k' = k0
      · subst hq; simp [List.lookup_cons]
      · simp only [beq_false_of_ne hq]
        exact ih

theorem getattr_setattr_self (e : Elem) (k : String) (v : Val) :
    getattr (setattr e k v) k = v := by
  simp [getattr, setattr, lookup_odInsert_self]

theorem getattr_setattr_ne (e : Elem) (k k' : String) (v : Val) (h : k' ≠ k) :
    getattr (setattr e k v) k' = getattr e k' := by
  simp [getattr, setattr, lookup_odInsert_ne _ _ _ _ h]

theorem pk_setattr (e : Elem) (k : String) (v : Val) :
    (setattr e k v).pk = e.pk := rfl

/-! ### `update_object_pure` lemmas -/

theorem uop_pk (e : Elem) (pm : List PMapping) (d : Data) :
    ((update_object_pure e pm d).1).pk = e.pk := by
  induction pm generalizing e with
  | nil => rfl
  | cons m rest ih =>
    obtain ⟨dp, op, f⟩ := m
    simp only [update_object_pure]
    split
    · rw [ih]; exact pk_setattr ..
    · exact ih e

theorem uop_getattr_notin (e : Elem) (pm : List PMapping) (d : Data)
    (op : String) (h : op ∉ pm.map (fun m => m.2.1)) :
    getattr (update_object_pure e pm d).1 op = getattr e op := by
  induction pm generalizing e with
  | nil => rfl
  | cons m rest ih =>
    obtain ⟨dp, op', f⟩ := m
    simp only [List.map_cons, List.mem_cons, not_or] at h
    simp only [update_object_pure]
    split
    · rw [ih _ h.2, getattr_setattr_ne _ _ _ _ h.1]
    · exact ih e h.2

theorem uop_props (e : Elem) (pm : List PMapping) (d : Data)
    (hnd : (pm.map (fun m => m.2.1)).Nodup) :
    propsEqual pm (update_object_pure e pm d).1 d := by
  induction pm generalizing e with
  | nil => intro m hm; simp at hm
  | cons m rest ih =>
    obtain ⟨dp, op, f⟩ := m
    simp only [List.map_cons, List.nodup_cons] at hnd
    intro m' hm'
    simp only [List.mem_cons] at hm'
    rcases hm' with rfl | hm'
    · simp only [update_object_pure]
      split
      · rw [uop_getattr_notin _ _ _ _ hnd.1, getattr_setattr_self]
      · next hne =>
        rw [uop_getattr_notin _ _ _ _ hnd.1]
        exact not_ne_iff.mp hne
    · simp only [update_object_pure]
      split
      · exact ih _ hnd.2 m' hm'
      · exact ih _ hnd.2 m' hm'

theorem uop_save_false (e : Elem) (pm : List PMapping) (d : Data)
    (h : (update_object_pure e pm d).2 = false) :
    (update_object_pure e pm d).1 = e := by
  induction pm generalizing e with
  | nil => rfl
  | cons m rest ih =>
    obtain ⟨dp, op, f⟩ := m
    simp only [update_object_pure] at h ⊢
    split
    · next hne => rw [if_pos hne] at h; simp at h
    · next hne => rw [if_neg hne] at h; exact ih e h

theorem uop_of_propsEqual (e : Elem) (pm : List PMapping) (d : Data)
    (h : propsEqual pm e d) :
    update_object_pure e pm d = (e, false) := by
  induction pm generalizing e with
  | nil => rfl
  | cons m rest ih =>
    obtain ⟨dp, op, f⟩ := m
    have h0 : getattr e op = applyP f (dataGet d dp) :=
      h (dp, op, f) (List.mem_cons_self _ _)
    simp only [update_object_pure]
    rw [if_neg (by simpa using h0)]
    exact ih e (fun m' hm' => h m' (List.mem_cons_of_mem _ hm'))

theorem uop_idem (e : Elem) (pm : List PMapping) (d : Data)
    (hnd : (pm.map (fun m => m.2.1)).Nodup) :
    update_object_pure (update_object_pure e pm d).1 pm d =
      ((update_object_pure e pm d).1, false) :=
  uop_of_propsEqual _ _ _ (uop_props e pm d hnd)

/-- `update_object_from_data` on a pure mapping neither reads the table nor
touches the missing list. -/
theorem update_object_lift (e : Elem) (pm : List PMapping) (d : Data)
    (table : Table) (missing : List Int) :
    update_object_from_data e (liftPM pm) d table missing =
      ((update_object_pure e pm d).1, (update_object_pure e pm d).2, missing) := by
  induction pm generalizing e missing with
  | nil => rfl
  | cons m rest ih =>
    obtain ⟨dp, op, f⟩ := m
    simp only [liftPM, List.map_cons] at ih ⊢
    cases f with
    | none =>
      simp only [update_object_from_data, update_object_pure,
        Option.map_none', applyP]
      split
      · rw [ih]
      · rw [ih]
    | some g =>
      simp only [update_object_from_data, update_object_pure,
        Option.map_some', pureT, applyP]
      split
      · rw [ih]
      · rw [ih]

/-! ### The ordered dicts of `update_list_of` -/

theorem odInsert_of_notmem {κ β : Type} [DecidableEq κ]
    (l : List (κ × β)) (k : κ) (v : β) (h : k ∉ l.map (fun p => p.1)) :
    odInsert l k v = l ++ [(k, v)] := by
  induction l with
  | nil => rfl
  | cons hd t ih =>
    obtain ⟨k0, v0⟩ := hd
    simp only [List.map_cons, List.mem_cons, not_or] at h
    simp only [odInsert, if_neg (Ne.symm h.1), List.cons_append, List.cons.injEq,
      true_and]
    exact ih h.2

theorem odInsert_keys {κ β : Type} [DecidableEq κ]
    (l : List (κ × β)) (k : κ) (v : β) :
    (odInsert l k v).map (fun p => p.1) =
      if k ∈ l.map (fun p => p.1) then l.map (fun p => p.1)
      else l.map (fun p => p.1) ++ [k] := by
  induction l with
  | nil => simp [odInsert]
  | cons hd t ih =>
    obtain ⟨k0, v0⟩ := hd
    by_cases hk : k0 = k
    · subst hk; simp [odInsert]
    · simp only [odInsert, if_neg hk, List.map_cons, ih, List.mem_cons]
      by_cases hm : k ∈ t.map (fun p => p.1)
      · rw [if_pos hm, if_pos (Or.inr hm)]
      · rw [if_neg hm, if_neg (by simpa [Ne.symm hk] using hm), List.cons_append]

theorem odInsert_keys_nodup {κ β : Type} [DecidableEq κ]
    (l : List (κ × β)) (k : κ) (v : β)
    (h : (l.map (fun p => p.1)).Nodup) :
    ((odInsert l k v).map (fun p => p.1)).Nodup := by
  rw [odInsert_keys]
  by_cases hm : k ∈ l.map (fun p => p.1)
  · rwa [if_pos hm]
  · rw [if_neg hm]
    exact h.append (List.nodup_singleton k)
      (fun a ha hk => hm ((List.mem_singleton.mp hk) ▸ ha))

theorem buildOriginalElems_aux (idp : String) (st : Table)
    (acc : List (Val × Elem))
    (hacc : ∀ e ∈ st, getattr e idp ∉ acc.map (fun p => p.1))
    (hnd : (st.map (fun e => getattr e idp)).Nodup) :
    st.foldl (fun od e => odInsert od (getattr e idp) e) acc =
      acc ++ st.map (fun e => (getattr e idp, e)) := by
  induction st generalizing acc with
  | nil => simp
  | cons e tl ih =>
    simp only [List.map_cons, List.nodup_cons] at hnd
    simp only [List.foldl_cons]
    rw [odInsert_of_notmem _ _ _ (hacc e (List.mem_cons_self _ _))]
    rw [ih _ ?_ hnd.2]
    · simp
    · intro x hx
      simp only [List.map_append, List.mem_append, not_or, List.map_cons]
      refine ⟨hacc x (List.mem_cons_of_mem _ hx), ?_⟩
      simp only [List.map_nil, List.mem_singleton]
      intro hxe
      exact hnd.1 (hxe ▸ List.mem_map_of_mem (fun e => getattr e idp) hx)

/-- With distinct element ids, `original_elems` is just the list of
(id, element) pairs in collection order. -/
theorem buildOriginalElems_eq (idp : String) (st : Table)
    (hnd : (st.map (fun e => getattr e idp)).Nodup) :
    buildOriginalElems idp st = st.map (fun e => (getattr e idp, e)) := by
  simpa [buildOriginalElems] using buildOriginalElems_aux idp st [] (by simp) hnd

theorem buildDataElems_foldl_none (idd : String) (json : List Data) :
    json.foldl
      (fun acc data_elem =>
        match acc with
        | none => none
        | some od =>
          match pyToInt (dataGet data_elem idd) with
          | none => none
          | some data_id => some (odInsert od data_id data_elem))
      none = none := by
  induction json with
  | nil => rfl
  | cons d tl ih => simpa using ih

theorem buildDataElems_aux_nodup (idd : String) (json : List Data)
    (acc : List (Int × Data)) (hacc : (acc.map (fun p => p.1)).Nodup)
    (de : List (Int × Data))
    (h : json.foldl
      (fun acc data_elem =>
        match acc with
        | none => none
        | some od =>
          match pyToInt (dataGet data_elem idd) with
          | none => none
          | some data_id => some (odInsert od data_id data_elem))
      (some acc) = some de) :
    (de.map (fun p => p.1)).Nodup := by
  induction json generalizing acc with
  | nil => simp only [List.foldl_nil, Option.some.injEq] at h; exact h ▸ hacc
  | cons d tl ih =>
    simp only [List.foldl_cons] at h
    cases hc : pyToInt (dataGet d idd) with
    | none =>
      rw [hc] at h
      rw [buildDataElems_foldl_none] at h
      exact absurd h (by simp)
    | some n =>
      rw [hc] at h
      exact ih _ (odInsert_keys_nodup _ _ _ hacc) h

/-- The keys of `data_elems` are distinct. -/
theorem buildDataElems_nodup (idd : String) (json : List Data)
    (de : List (Int × Data)) (h : buildDataElems idd json = some de) :
    (de.map (fun p => p.1)).Nodup :=
  buildDataElems_aux_nodup idd json [] (by simp) de h

/-! ### Deletion loop -/

theorem dbDelete_append (pre tl : Table) (e : Elem)
    (hpre : ∀ x ∈ pre, x.pk ≠ e.pk) (htl : ∀ x ∈ tl, x.pk ≠ e.pk) :
    dbDelete (pre ++ e :: tl) e.pk = pre ++ tl := by
  simp only [dbDelete, List.filter_append, List.filter_cons]
  rw [List.filter_eq_self.mpr (fun a ha => by simpa using hpre a ha),
    List.filter_eq_self.mpr (fun a ha => by simpa using htl a ha)]
  simp

theorem pk_ne_of_nodup_append (pre tl : Table) (e : Elem)
    (h : ((pre ++ e :: tl).map (fun x => x.pk)).Nodup) :
    (∀ x ∈ pre, x.pk ≠ e.pk) ∧ (∀ x ∈ tl, x.pk ≠ e.pk) := by
  simp only [List.map_append, List.map_cons, List.nodup_append,
    List.nodup_cons] at h
  constructor
  · intro x hx hxe
    exact h.2.2 (List.mem_map_of_mem (fun x => x.pk) hx)
      (by rw [hxe]; exact List.mem_cons_self _ _)
  · intro x hx hxe
    exact h.2.1.1 (hxe ▸ List.mem_map_of_mem (fun x => x.pk) hx)

theorem deleteLoop_aux (dataIds : List Int) (idp : String)
    (pre tl : Table) (ch : Bool) (dl : Nat)
    (hpk : (((pre ++ tl)).map (fun x => x.pk)).Nodup) :
    deleteLoop dataIds (tl.map (fun e => (getattr e idp, e))) (pre ++ tl) ch dl =
      (pre ++ tl.filter (fun e => dataIds.any (fun d => valEqInt (getattr e idp) d)),
       ch || tl.any (fun e => !dataIds.any (fun d => valEqInt (getattr e idp) d)),
       dl + tl.countP (fun e => !dataIds.any (fun d => valEqInt (getattr e idp) d))) := by
  induction tl generalizing pre ch dl with
  | nil => simp [deleteLoop]
  | cons e tl' ih =>
    simp only [List.map_cons, deleteLoop]
    by_cases hm : dataIds.any (fun d => valEqInt (getattr e idp) d) = true
    · rw [if_pos hm]
      have := ih (pre ++ [e]) ch dl (by simpa using hpk)
      simp only [List.append_assoc, List.singleton_append] at this
      rw [this]
      simp [List.filter_cons, hm, List.countP_cons]
    · rw [if_neg hm]
      have hne := pk_ne_of_nodup_append pre tl' e hpk
      rw [dbDelete_append pre tl' e hne.1 hne.2]
      have hpk' : ((pre ++ tl').map (fun x => x.pk)).Nodup := by
        refine List.Nodup.sublist (List.Sublist.map _ ?_) hpk
        exact (List.sublist_cons_self e tl').append_left pre
      rw [ih pre true (dl + 1) hpk']
      simp only [List.filter_cons, List.countP_cons, hm]
      simp only [Bool.not_eq_true] at hm
      simp [hm, Nat.add_assoc, Nat.add_comm 1]

/-- Characterization of the deletion loop of `update_list_of`: with distinct
ids and primary keys, exactly the elements whose id is not among the data ids
are deleted. -/
theorem deleteLoop_spec (dataIds : List Int) (idp : String) (st : Table)
    (hids : (st.map (fun e => getattr e idp)).Nodup)
    (hpk : (st.map (fun x => x.pk)).Nodup) :
    deleteLoop dataIds (buildOriginalElems idp st) st false 0 =
      (st.filter (fun e => dataIds.any (fun d => valEqInt (getattr e idp) d)),
       st.any (fun e => !dataIds.any (fun d => valEqInt (getattr e idp) d)),
       st.countP (fun e => !dataIds.any (fun d => valEqInt (getattr e idp) d))) := by
  rw [buildOriginalElems_eq idp st hids]
  simpa using deleteLoop_aux dataIds idp [] st false 0 (by simpa using hpk)

/-! ### Matching helpers -/

theorem valEqInt_vint (n d : Int) : valEqInt (.vint n) d = (n == d) := rfl

theorem eq_of_valEqInt_vint {n d : Int} (h : valEqInt (.vint n) d = true) :
    n = d := by simpa [valEqInt_vint] using h

theorem match_unique (idp : String) (st : Table)
    (hvint : ∀ e ∈ st, ∃ n : Int, getattr e idp = .vint n)
    (hids : (st.map (fun e => getattr e idp)).Nodup)
    {x y : Elem} (hx : x ∈ st) (hy : y ∈ st) {d : Int}
    (hmx : valEqInt (getattr x idp) d = true)
    (hmy : valEqInt (getattr y idp) d = true) : x = y := by
  obtain ⟨nx, hnx⟩ := hvint x hx
  obtain ⟨ny, hny⟩ := hvint y hy
  rw [hnx] at hmx
  rw [hny] at hmy
  have hxy : getattr x idp = getattr y idp := by
    rw [hnx, hny, eq_of_valEqInt_vint hmx, eq_of_valEqInt_vint hmy]
  exact List.inj_on_of_nodup_map hids hx hy hxy

theorem getattr_fields_congr {e1 e2 : Elem} (h : e1.fields = e2.fields)
    (a : String) : getattr e1 a = getattr e2 a := by simp [getattr, h]

theorem propsEqual_fields {pm : List PMapping} {e1 e2 : Elem} {data : Data}
    (h : e1.fields = e2.fields) (hp : propsEqual pm e1 data) :
    propsEqual pm e2 data :=
  fun m hm => (getattr_fields_congr h m.2.1).symm.trans (hp m hm)

theorem findData_cons_self (idp : String) (d : Int) (data : Data)
    (rest : List (Int × Data)) (e : Elem) (hn : getattr e idp = .vint d) :
    findData idp ((d, data) :: rest) e = some (d, data) := by
  unfold findData
  rw [List.find?_cons_of_pos]
  simp [hn, valEqInt]

theorem findData_cons_ne (idp : String) (d : Int) (data : Data)
    (rest : List (Int × Data)) (e : Elem) (n : Int)
    (hn : getattr e idp = .vint n) (hne : n ≠ d) :
    findData idp ((d, data) :: rest) e = findData idp rest e := by
  unfold findData
  rw [List.find?_cons_of_neg]
  simp [hn, valEqInt, hne]

theorem findData_none (idp : String) (de : List (Int × Data)) (e : Elem)
    (n : Int) (hn : getattr e idp = .vint n)
    (hnk : n ∉ de.map (fun p => p.1)) : findData idp de e = none := by
  apply List.find?_eq_none.mpr
  intro p hp
  rw [hn, valEqInt_vint]
  simp only [beq_iff_eq, Bool.not_eq_true, decide_eq_false_iff_not]
  intro h
  exact hnk (h ▸ List.mem_map_of_mem (fun p => p.1) hp)

theorem findData_of_mem (idp : String) (de : List (Int × Data)) (d : Int)
    (data : Data) (e : Elem) (hkeys : (de.map (fun p => p.1)).Nodup)
    (hmem : (d, data) ∈ de) (hn : getattr e idp = .vint d) :
    findData idp de e = some (d, data) := by
  induction de with
  | nil => simp at hmem
  | cons p rest ih =>
    obtain ⟨d0, data0⟩ := p
    simp only [List.map_cons, List.nodup_cons] at hkeys
    rcases List.mem_cons.mp hmem with heq | hmem'
    · injection heq with h1 h2
      subst h1
      subst h2
      exact findData_cons_self _ _ _ _ _ hn
    · by_cases hd : d0 = d
      · subst hd
        exact absurd (List.mem_map_of_mem (fun p => p.1) hmem') hkeys.1
      · rw [findData_cons_ne idp d0 data0 rest e d hn (fun h => hd h.symm)]
        exact ih hkeys.2 hmem'

theorem updIfMatch_pk (idp : String) (pm : List PMapping)
    (de : List (Int × Data)) (e : Elem) :
    (updIfMatch idp pm de e).pk = e.pk := by
  unfold updIfMatch
  cases findData idp de e with
  | none => rfl
  | some p => exact uop_pk ..

theorem updIfMatch_id (idp : String) (pm : List PMapping)
    (de : List (Int × Data)) (e : Elem)
    (hops : idp ∉ pm.map (fun m => m.2.1)) :
    getattr (updIfMatch idp pm de e) idp = getattr e idp := by
  unfold updIfMatch
  cases findData idp de e with
  | none => rfl
  | some p => exact uop_getattr_notin e pm p.2 idp hops

theorem updIfMatch_of_none (idp : String) (pm : List PMapping)
    (de : List (Int × Data)) (e : Elem) (h : findData idp de e = none) :
    updIfMatch idp pm de e = e := by
  unfold updIfMatch
  rw [h]

theorem updIfMatch_of_some (idp : String) (pm : List PMapping)
    (de : List (Int × Data)) (e : Elem) (p : Int × Data)
    (h : findData idp de e = some p) :
    updIfMatch idp pm de e = (update_object_pure e pm p.2).1 := by
  unfold updIfMatch
  rw [h]

theorem any_congr {α : Type} (l : List α) (p q : α → Bool)
    (h : ∀ x ∈ l, p x = q x) : l.any p = l.any q := by
  induction l with
  | nil => rfl
  | cons x tl ih =>
    simp only [List.any_cons, h x (List.mem_cons_self _ _)]
    rw [ih (fun y hy => h y (List.mem_cons_of_mem _ hy))]

theorem occOf_map (idp : String) (st : Table) (h : Elem → Elem)
    (hid : ∀ x ∈ st, getattr (h x) idp = getattr x idp) (d : Int) :
    occOf idp (st.map h) d = occOf idp st d := by
  unfold occOf
  rw [List.any_map]
  exact any_congr _ _ _ (fun x hx => by simp [Function.comp, hid x hx])

theorem occOf_append_single (idp : String) (st : Table) (e : Elem) (d : Int) :
    occOf idp (st ++ [e]) d = (occOf idp st d || valEqInt (getattr e idp) d) := by
  simp [occOf, List.any_append]

theorem createdList_congr (idp : String) (newElem : Elem) (pm : List PMapping)
    (de : List (Int × Data)) (occ1 occ2 : Int → Bool) (npk : Nat)
    (h : ∀ p ∈ de, occ1 p.1 = occ2 p.1) :
    createdList idp newElem pm de occ1 npk =
      createdList idp newElem pm de occ2 npk := by
  induction de generalizing npk with
  | nil => rfl
  | cons p rest ih =>
    obtain ⟨d, data⟩ := p
    have hd : occ1 d = occ2 d := h (d, data) (List.mem_cons_self _ _)
    have hr : ∀ p ∈ rest, occ1 p.1 = occ2 p.1 :=
      fun p hp => h p (List.mem_cons_of_mem _ hp)
    simp only [createdList, hd]
    by_cases hocc : occ2 d = true
    · rw [if_pos hocc, if_pos hocc, ih _ hr]
    · rw [if_neg hocc, if_neg hocc, ih _ hr]

theorem getattr_set_pk (e : Elem) (p : Nat) (a : String) :
    getattr { e with pk := p } a = getattr e a := rfl

theorem dbSave_of_mem_pk (st : Table) (e x : Elem) (hx : x ∈ st)
    (hpk : x.pk = e.pk) :
    dbSave st e = st.map (fun y => if y.pk == e.pk then e else y) := by
  unfold dbSave
  rw [if_pos (List.any_eq_true.mpr ⟨x, hx, by simp [hpk]⟩)]

theorem dbSave_self (st : Table) (e : Elem) (he : e ∈ st)
    (hpk : (st.map (fun x => x.pk)).Nodup) : dbSave st e = st := by
  rw [dbSave_of_mem_pk st e e he rfl]
  have h : ∀ y ∈ st, (if y.pk == e.pk then e else y) = y := by
    intro y hy
    by_cases hye : y.pk = e.pk
    · have : y = e := List.inj_on_of_nodup_map hpk hy he hye
      simp [this]
    · simp [hye]
  rw [List.map_congr_left h]
  simp

/-! ### Master characterization of the data loop (no integrity errors, pure
mapping) -/

theorem dataLoop_ok (idp : String) (newElem : Elem) (pm : List PMapping)
    (hops : idp ∉ pm.map (fun m => m.2.1))
    (hopnd : (pm.map (fun m => m.2.1)).Nodup) (deleted : Nat)
    (de : List (Int × Data)) (st : Table) (npk : Nat) (ch : Bool)
    (em : Nat) (mi : List Int) (cr md : Nat)
    (hvint : ∀ e ∈ st, ∃ n : Int, getattr e idp = .vint n)
    (hids : (st.map (fun e => getattr e idp)).Nodup)
    (hpks : (st.map (fun e => e.pk)).Nodup)
    (hfresh : ∀ e ∈ st, e.pk < npk)
    (hkeys : (de.map (fun p => p.1)).Nodup) :
    ∃ chR crR mdR,
      dataLoop idp newElem (liftPM pm) okOracle deleted de st npk ch em mi cr md =
        ⟨st.map (updIfMatch idp pm de) ++
            createdList idp newElem pm de (occOf idp st) npk,
          npk + (createdList idp newElem pm de (occOf idp st) npk).length,
          chR, em, mi, deleted, crR, mdR⟩ := by
  induction de generalizing st npk ch em mi cr md with
  | nil =>
    refine ⟨ch, cr, md, ?_⟩
    have hid : st.map (updIfMatch idp pm []) = st := by
      rw [List.map_congr_left
        (fun e _ => updIfMatch_of_none idp pm [] e rfl)]
      simp
    simp [dataLoop, createdList, hid]
  | cons p rest ih =>
    obtain ⟨d, data⟩ := p
    simp only [List.map_cons, List.nodup_cons] at hkeys
    cases hfind : st.find? (fun e => valEqInt (getattr e idp) d) with
    | some e =>
      have he_mem : e ∈ st := List.mem_of_find?_eq_some hfind
      have he_match : valEqInt (getattr e idp) d = true := by
        simpa using List.find?_some hfind
      obtain ⟨n, hn0⟩ := hvint e he_mem
      have hnd : n = d := eq_of_valEqInt_vint (by rwa [hn0] at he_match)
      have hn : getattr e idp = .vint d := by rw [hn0, hnd]
      -- the updated element and its properties
      have hu_pk : (update_object_pure e pm data).1.pk = e.pk := uop_pk ..
      have hu_id : getattr (update_object_pure e pm data).1 idp = .vint d := by
        rw [uop_getattr_notin e pm data idp hops, hn]
      -- other elements of the table do not match this data id
      have hother : ∀ x ∈ st, x ≠ e → valEqInt (getattr x idp) d = false := by
        intro x hx hxe
        by_contra hcon
        simp only [Bool.not_eq_false] at hcon
        exact hxe (match_unique idp st hvint hids hx he_mem hcon he_match)
      have hmap_cons : ∀ x ∈ st, updIfMatch idp pm ((d, data) :: rest) x =
          if x = e then (update_object_pure e pm data).1 else updIfMatch idp pm rest x := by
        intro x hx
        by_cases hxe : x = e
        · subst hxe
          rw [if_pos rfl, updIfMatch_of_some idp pm _ x (d, data)
            (findData_cons_self idp d data rest x hn)]
        · rw [if_neg hxe]
          obtain ⟨m, hm⟩ := hvint x hx
          have : m ≠ d := by
            intro hmd
            have : valEqInt (getattr x idp) d = true := by
              rw [hm, hmd, valEqInt_vint]; simp
            exact hxe (match_unique idp st hvint hids hx he_mem this he_match)
          unfold updIfMatch
          rw [findData_cons_ne idp d data rest x m hm this]
      simp only [dataLoop, hfind, update_object_lift]
      by_cases hsave : (update_object_pure e pm data).2 = true
      · rw [if_pos hsave]
        -- the save: replace the element in place
        rw [dbSave_of_mem_pk st (update_object_pure e pm data).1 e he_mem hu_pk.symm]
        have hrepl_pk : ∀ x ∈ st,
            (if x.pk == (update_object_pure e pm data).1.pk
              then (update_object_pure e pm data).1 else x).pk = x.pk := by
          intro x hx
          by_cases h : x.pk = (update_object_pure e pm data).1.pk
          · simp [h]
          · simp [h]
        have hrepl_val : ∀ x ∈ st,
            (if x.pk == (update_object_pure e pm data).1.pk
              then (update_object_pure e pm data).1 else x) =
            if x = e then (update_object_pure e pm data).1 else x := by
          intro x hx
          by_cases hxe : x = e
          · subst hxe
            simp [hu_pk]
          · have : x.pk ≠ (update_object_pure e pm data).1.pk := by
              rw [hu_pk]
              intro hc
              exact hxe (List.inj_on_of_nodup_map hpks hx he_mem hc)
            simp [this, hxe]
        have hrepl_id : ∀ x ∈ st,
            getattr (if x.pk == (update_object_pure e pm data).1.pk
              then (update_object_pure e pm data).1 else x) idp =
            getattr x idp := by
          intro x hx
          rw [hrepl_val x hx]
          by_cases hxe : x = e
          · subst hxe; rw [if_pos rfl, hu_id, hn]
          · rw [if_neg hxe]
        have hids_eq : (st.map (fun y => if y.pk == (update_object_pure e pm data).1.pk
              then (update_object_pure e pm data).1 else y)).map (fun x => getattr x idp) =
            st.map (fun x => getattr x idp) := by
          rw [List.map_map]
          exact List.map_congr_left (fun x hx => hrepl_id x hx)
        have hpks_eq : (st.map (fun y => if y.pk == (update_object_pure e pm data).1.pk
              then (update_object_pure e pm data).1 else y)).map (fun x => x.pk) =
            st.map (fun x => x.pk) := by
          rw [List.map_map]
          exact List.map_congr_left (fun x hx => hrepl_pk x hx)
        obtain ⟨chR, crR, mdR, hIH⟩ := ih
          (st.map (fun y => if y.pk == (update_object_pure e pm data).1.pk
            then (update_object_pure e pm data).1 else y))
          npk true em mi cr (md + 1)
          (by
            intro x' hx'
            obtain ⟨x, hx, rfl⟩ := List.mem_map.mp hx'
            have hv := hvint x hx
            rw [← hrepl_id x hx] at hv
            exact hv)
          (by rw [hids_eq]; exact hids)
          (by rw [hpks_eq]; exact hpks)
          (by
            intro x' hx'
            obtain ⟨x, hx, rfl⟩ := List.mem_map.mp hx'
            have hfp := hfresh x hx
            rw [← hrepl_pk x hx] at hfp
            exact hfp)
          hkeys.2
        refine ⟨chR, crR, mdR, ?_⟩
        rw [hIH]
        have hstate : (st.map (fun y => if y.pk == (update_object_pure e pm data).1.pk
              then (update_object_pure e pm data).1 else y)).map (updIfMatch idp pm rest) =
            st.map (updIfMatch idp pm ((d, data) :: rest)) := by
          rw [List.map_map]
          apply List.map_congr_left
          intro x hx
          simp only [Function.comp]
          rw [hrepl_val x hx, hmap_cons x hx]
          by_cases hxe : x = e
          · subst hxe
            rw [if_pos rfl, if_pos rfl]
            exact updIfMatch_of_none idp pm rest _
              (findData_none idp rest _ d hu_id hkeys.1)
          · rw [if_neg hxe, if_neg hxe]
        have hocc_eq : ∀ q ∈ rest,
            occOf idp (st.map (fun y => if y.pk == (update_object_pure e pm data).1.pk
              then (update_object_pure e pm data).1 else y)) q.1 = occOf idp st q.1 := by
          intro q _
          refine occOf_map idp st _ ?_ q.1
          intro x hx
          exact hrepl_id x hx
        have hcreate : createdList idp newElem pm rest
            (occOf idp (st.map (fun y => if y.pk == (update_object_pure e pm data).1.pk
              then (update_object_pure e pm data).1 else y))) npk =
            createdList idp newElem pm ((d, data) :: rest) (occOf idp st) npk := by
          rw [createdList_congr idp newElem pm rest _ (occOf idp st) npk hocc_eq]
          have hocc_d : occOf idp st d = true :=
            List.any_eq_true.mpr ⟨e, he_mem, he_match⟩
          simp [createdList, hocc_d]
        rw [hstate, hcreate]
      · rw [if_neg hsave]
        simp only [Bool.not_eq_true] at hsave
        have hu_noop : (update_object_pure e pm data).1 = e :=
          uop_save_false e pm data hsave
        obtain ⟨chR, crR, mdR, hIH⟩ := ih st npk ch em mi cr md
          hvint hids hpks hfresh hkeys.2
        refine ⟨chR, crR, mdR, ?_⟩
        rw [hIH]
        have hstate : st.map (updIfMatch idp pm rest) =
            st.map (updIfMatch idp pm ((d, data) :: rest)) := by
          apply List.map_congr_left
          intro x hx
          rw [hmap_cons x hx]
          by_cases hxe : x = e
          · subst hxe
            rw [if_pos rfl, hu_noop]
            exact updIfMatch_of_none idp pm rest _
              (findData_none idp rest _ d hn hkeys.1)
          · rw [if_neg hxe]
        have hcreate : createdList idp newElem pm rest (occOf idp st) npk =
            createdList idp newElem pm ((d, data) :: rest) (occOf idp st) npk := by
          have hocc_d : occOf idp st d = true :=
            List.any_eq_true.mpr ⟨e, he_mem, he_match⟩
          simp [createdList, hocc_d]
        rw [hstate, hcreate]
    | none =>
      have hnone : ∀ x ∈ st, ¬(valEqInt (getattr x idp) d = true) :=
        List.find?_eq_none.mp hfind
      have hocc_d : occOf idp st d = false := by
        rw [occOf]
        rw [List.any_eq_false]
        exact hnone
      have hidNew : getattr ({ (update_object_pure (setattr newElem idp (.vint d)) pm data).1
          with pk := npk } : Elem) idp = .vint d := by
        rw [getattr_set_pk, uop_getattr_notin _ _ _ _ hops, getattr_setattr_self]
      have hpropsNew : propsEqual pm ({ (update_object_pure (setattr newElem idp (.vint d)) pm data).1
          with pk := npk } : Elem) data :=
        propsEqual_fields rfl (uop_props _ pm data hopnd)
      have hsecond : update_object_pure ({ (update_object_pure (setattr newElem idp (.vint d)) pm data).1
          with pk := npk } : Elem) pm data =
          (({ (update_object_pure (setattr newElem idp (.vint d)) pm data).1
            with pk := npk } : Elem), false) :=
        uop_of_propsEqual _ _ _ hpropsNew
      have hpks1 : ((st ++ [({ (update_object_pure (setattr newElem idp (.vint d)) pm data).1
          with pk := npk } : Elem)]).map (fun x => x.pk)).Nodup := by
        rw [List.map_append]
        refine List.Nodup.append hpks (by simp) ?_
        intro a ha hb
        obtain ⟨x, hx, rfl⟩ := List.mem_map.mp ha
        simp only [List.map_cons, List.map_nil, List.mem_singleton] at hb
        exact absurd hb (Nat.ne_of_lt (hfresh x hx))
      simp only [dataLoop, hfind, update_object_lift, okOracle]
      rw [hsecond]
      rw [dbSave_self _ _ (List.mem_append_right st (List.mem_singleton.mpr rfl)) hpks1]
      obtain ⟨chR, crR, mdR, hIH⟩ := ih
        (st ++ [({ (update_object_pure (setattr newElem idp (.vint d)) pm data).1
          with pk := npk } : Elem)]) (npk + 1) true em mi (cr + 1) md
        (by
          intro x hx
          rcases List.mem_append.mp hx with hx | hx
          · exact hvint x hx
          · rw [List.mem_singleton.mp hx]
            exact ⟨d, hidNew⟩)
        (by
          rw [List.map_append]
          refine List.Nodup.append hids (by simp) ?_
          intro a ha hb
          obtain ⟨x, hx, rfl⟩ := List.mem_map.mp ha
          simp only [List.map_cons, List.map_nil, List.mem_singleton] at hb
          rw [hidNew] at hb
          apply hnone x hx
          rw [hb, valEqInt_vint]
          simp)
        hpks1
        (by
          intro x hx
          rcases List.mem_append.mp hx with hx | hx
          · exact Nat.lt_succ_of_lt (hfresh x hx)
          · rw [List.mem_singleton.mp hx]
            exact Nat.lt_succ_self npk)
        hkeys.2
      refine ⟨chR, crR, mdR, ?_⟩
      rw [hIH]
      have hstate1 : (st ++ [({ (update_object_pure (setattr newElem idp (.vint d)) pm data).1
          with pk := npk } : Elem)]).map (updIfMatch idp pm rest) =
          st.map (updIfMatch idp pm ((d, data) :: rest)) ++
            [({ (update_object_pure (setattr newElem idp (.vint d)) pm data).1
              with pk := npk } : Elem)] := by
        rw [List.map_append]
        congr 1
        · apply List.map_congr_left
          intro x hx
          obtain ⟨m, hm⟩ := hvint x hx
          have hmd : m ≠ d := by
            intro hc
            apply hnone x hx
            rw [hm, hc, valEqInt_vint]
            simp
          unfold updIfMatch
          rw [findData_cons_ne idp d data rest x m hm hmd]
        · simp only [List.map_cons, List.map_nil]
          rw [updIfMatch_of_none idp pm rest _
            (findData_none idp rest _ d hidNew hkeys.1)]
      have hocc1 : ∀ q ∈ rest,
          occOf idp (st ++ [({ (update_object_pure (setattr newElem idp (.vint d)) pm data).1
            with pk := npk } : Elem)]) q.1 = occOf idp st q.1 := by
        intro q hq
        rw [occOf_append_single]
        have : valEqInt (getattr ({ (update_object_pure (setattr newElem idp (.vint d)) pm data).1
            with pk := npk } : Elem) idp) q.1 = false := by
          rw [hidNew, valEqInt_vint]
          simp only [beq_eq_false_iff_ne, ne_eq]
          intro hc
          exact hkeys.1 (hc ▸ List.mem_map_of_mem (fun p => p.1) hq)
        rw [this, Bool.or_false]
      have hcreate1 : createdList idp newElem pm ((d, data) :: rest) (occOf idp st) npk =
          ({ (update_object_pure (setattr newElem idp (.vint d)) pm data).1
            with pk := npk } : Elem) ::
          createdList idp newElem pm rest
            (occOf idp (st ++ [({ (update_object_pure (setattr newElem idp (.vint d)) pm data).1
              with pk := npk } : Elem)])) (npk + 1) := by
        simp only [createdList, hocc_d, Bool.false_eq_true, if_false]
        congr 1
        exact (createdList_congr idp newElem pm rest _ _ (npk + 1) hocc1).symm
      rw [hstate1, hcreate1]
      simp only [List.append_assoc, List.singleton_append, List.length_cons,
        ULResult.mk.injEq, true_and, and_true]
      omega

/-! ### The data loop on an already synchronized collection -/

theorem dataLoop_synced (idp : String) (newElem : Elem) (pm : List PMapping)
    (oracle : Int → SaveOutcome) (deleted : Nat) (st : Table) (npk : Nat) :
    ∀ (de : List (Int × Data)) (ch : Bool) (em : Nat) (mi : List Int)
      (cr md : Nat),
      (∀ p ∈ de, ∃ e ∈ st, valEqInt (getattr e idp) p.1 = true) →
      (∀ p ∈ de, ∀ e ∈ st, valEqInt (getattr e idp) p.1 = true →
        update_object_pure e pm p.2 = (e, false)) →
      dataLoop idp newElem (liftPM pm) oracle deleted de st npk ch em mi cr md =
        ⟨st, npk, ch, em, mi, deleted, cr, md⟩ := by
  intro de
  induction de with
  | nil => intro ch em mi cr md _ _; rfl
  | cons p rest ih =>
    intro ch em mi cr md hex hupd
    obtain ⟨d, data⟩ := p
    obtain ⟨e0, he0, hm0⟩ := hex (d, data) (List.mem_cons_self _ _)
    cases hfind : st.find? (fun e => valEqInt (getattr e idp) d) with
    | none =>
      exact absurd hm0 (by simpa using List.find?_eq_none.mp hfind e0 he0)
    | some e =>
      have hmem : e ∈ st := List.mem_of_find?_eq_some hfind
      have hmatch : valEqInt (getattr e idp) d = true := by
        simpa using List.find?_some hfind
      have hupd_e : update_object_pure e pm data = (e, false) :=
        hupd (d, data) (List.mem_cons_self _ _) e hmem hmatch
      simp only [dataLoop, hfind, update_object_lift, hupd_e]
      exact ih ch em mi cr md
        (fun p hp => hex p (List.mem_cons_of_mem _ hp))
        (fun p hp => hupd p (List.mem_cons_of_mem _ hp))

/-! ### The `changes` flag tracks deletions, creations and modifications -/

theorem deleteLoop_changes (dataIds : List Int) :
    ∀ (pairs : List (Val × Elem)) (st : Table) (ch : Bool) (dl : Nat),
      ∃ k, (deleteLoop dataIds pairs st ch dl).2.2 = dl + k ∧
        (deleteLoop dataIds pairs st ch dl).2.1 = (ch || decide (0 < k)) := by
  intro pairs
  induction pairs with
  | nil => intro st ch dl; exact ⟨0, rfl, by simp [deleteLoop]⟩
  | cons p rest ih =>
    intro st ch dl
    obtain ⟨elem_id, oe⟩ := p
    simp only [deleteLoop]
    by_cases hm : dataIds.any (fun d => valEqInt elem_id d) = true
    · rw [if_pos hm]
      exact ih st ch dl
    · rw [if_neg hm]
      obtain ⟨k, hk1, hk2⟩ := ih (dbDelete st oe.pk) true (dl + 1)
      refine ⟨k + 1, by omega, ?_⟩
      rw [hk2]
      simp

theorem dataLoop_changes (idp : String) (newElem : Elem) (pm : List Mapping)
    (oracle : Int → SaveOutcome) (deleted : Nat) :
    ∀ (de : List (Int × Data)) (st : Table) (npk : Nat) (ch : Bool) (em : Nat)
      (mi : List Int) (cr md : Nat),
      ∃ c m,
        (dataLoop idp newElem pm oracle deleted de st npk ch em mi cr md).created = cr + c ∧
        (dataLoop idp newElem pm oracle deleted de st npk ch em mi cr md).modified = md + m ∧
        (dataLoop idp newElem pm oracle deleted de st npk ch em mi cr md).changes =
          (ch || decide (0 < c + m)) ∧
        (dataLoop idp newElem pm oracle deleted de st npk ch em mi cr md).deleted = deleted := by
  intro de
  induction de with
  | nil =>
    intro st npk ch em mi cr md
    exact ⟨0, 0, rfl, rfl, by simp [dataLoop], rfl⟩
  | cons p rest ih =>
    intro st npk ch em mi cr md
    obtain ⟨d, data⟩ := p
    cases hfind : st.find? (fun e => valEqInt (getattr e idp) d) with
    | some e =>
      simp only [dataLoop, hfind]
      by_cases hsave :
          (update_object_from_data e pm data st mi).2.1 = true
      · rw [if_pos hsave]
        obtain ⟨c, m, h1, h2, h3, h4⟩ := ih _ _ _ _ _ _ _
        refine ⟨c, m + 1, h1, by omega, ?_, h4⟩
        rw [h3]
        simp
      · rw [if_neg hsave]
        exact ih _ _ _ _ _ _ _
    | none =>
      cases horacle : oracle d with
      | ok =>
        simp only [dataLoop, hfind, horacle]
        obtain ⟨c, m, h1, h2, h3, h4⟩ := ih _ _ _ _ _ _ _
        refine ⟨c + 1, m, by omega, h2, ?_, h4⟩
        rw [h3]
        simp
      | integrityError conc =>
        cases conc with
        | some ce =>
          simp only [dataLoop, hfind, horacle]
          cases hfind2 : (st ++ [{ ce with pk := npk }]).find?
              (fun e => valEqInt (getattr e idp) d) with
          | some elem1 =>
            simp only [hfind2]
            by_cases hsave : (update_object_from_data elem1 pm data
                (st ++ [{ ce with pk := npk }]) (update_object_from_data
                  (setattr newElem idp (.vint d)) pm data st mi).2.2).2.1 = true
            · rw [if_pos hsave]
              obtain ⟨c, m, h1, h2, h3, h4⟩ := ih _ _ _ _ _ _ _
              refine ⟨c, m + 1, h1, by omega, ?_, h4⟩
              rw [h3]
              simp
            · rw [if_neg hsave]
              exact ih _ _ _ _ _ _ _
          | none =>
            simp only [hfind2]
            exact ih _ _ _ _ _ _ _
        | none =>
          -- the re-fetch is over the unchanged table, which the first lookup
          -- already found empty of this id
          simp only [dataLoop, hfind, horacle]
          exact ih _ _ _ _ _ _ _

/-! ### Properties of the created elements -/

theorem createdList_length_le (idp : String) (newElem : Elem)
    (pm : List PMapping) :
    ∀ (de : List (Int × Data)) (occ : Int → Bool) (npk : Nat),
      (createdList idp newElem pm de occ npk).length ≤ de.length := by
  intro de
  induction de with
  | nil => intro occ npk; simp [createdList]
  | cons p rest ih =>
    intro occ npk
    obtain ⟨d, data⟩ := p
    simp only [createdList]
    by_cases h : occ d = true
    · rw [if_pos h]
      exact Nat.le_succ_of_le (ih occ npk)
    · rw [if_neg h]
      simpa using ih occ (npk + 1)

theorem createdList_pks (idp : String) (newElem : Elem) (pm : List PMapping) :
    ∀ (de : List (Int × Data)) (occ : Int → Bool) (npk : Nat),
      (createdList idp newElem pm de occ npk).map (fun e => e.pk) =
        List.range' npk (createdList idp newElem pm de occ npk).length := by
  intro de
  induction de with
  | nil => intro occ npk; simp [createdList]
  | cons p rest ih =>
    intro occ npk
    obtain ⟨d, data⟩ := p
    simp only [createdList]
    by_cases h : occ d = true
    · rw [if_pos h]
      exact ih occ npk
    · rw [if_neg h]
      simp only [List.map_cons, List.length_cons, List.range'_succ]
      rw [ih occ (npk + 1)]

theorem createdList_mem (idp : String) (newElem : Elem) (pm : List PMapping) :
    ∀ (de : List (Int × Data)) (occ : Int → Bool) (npk : Nat) (e' : Elem),
      e' ∈ createdList idp newElem pm de occ npk →
      ∃ d data, (d, data) ∈ de ∧ occ d = false ∧ npk ≤ e'.pk ∧
        e'.fields =
          ((update_object_pure (setattr newElem idp (.vint d)) pm data).1).fields := by
  intro de
  induction de with
  | nil => intro occ npk e' h; simp [createdList] at h
  | cons p rest ih =>
    intro occ npk e' h
    obtain ⟨d, data⟩ := p
    simp only [createdList] at h
    by_cases hocc : occ d = true
    · rw [if_pos hocc] at h
      obtain ⟨d0, data0, hm, ho, hpk, hf⟩ := ih occ npk e' h
      exact ⟨d0, data0, List.mem_cons_of_mem _ hm, ho, hpk, hf⟩
    · rw [if_neg hocc] at h
      rcases List.mem_cons.mp h with rfl | h'
      · exact ⟨d, data, List.mem_cons_self _ _, by simpa using hocc, Nat.le_refl _, rfl⟩
      · obtain ⟨d0, data0, hm, ho, hpk, hf⟩ := ih occ (npk + 1) e' h'
        exact ⟨d0, data0, List.mem_cons_of_mem _ hm, ho, Nat.le_of_succ_le hpk, hf⟩

theorem createdList_covers (idp : String) (newElem : Elem) (pm : List PMapping) :
    ∀ (de : List (Int × Data)) (occ : Int → Bool) (npk : Nat) (d : Int)
      (data : Data), (d, data) ∈ de → occ d = false →
      ∃ e' ∈ createdList idp newElem pm de occ npk,
        e'.fields =
          ((update_object_pure (setattr newElem idp (.vint d)) pm data).1).fields := by
  intro de
  induction de with
  | nil => intro occ npk d data h _; simp at h
  | cons p rest ih =>
    intro occ npk d data hmem hocc
    obtain ⟨d0, data0⟩ := p
    simp only [createdList]
    rcases List.mem_cons.mp hmem with heq | hmem'
    · injection heq with h1 h2
      subst h1
      subst h2
      rw [if_neg (by simp [hocc])]
      exact ⟨_, List.mem_cons_self _ _, rfl⟩
    · by_cases h0 : occ d0 = true
      · rw [if_pos h0]
        exact ih occ npk d data hmem' hocc
      · rw [if_neg h0]
        obtain ⟨e', he', hf⟩ := ih occ (npk + 1) d data hmem' hocc
        exact ⟨e', List.mem_cons_of_mem _ he', hf⟩

theorem keys_nodup_unique {de : List (Int × Data)}
    (h : (de.map (fun p => p.1)).Nodup) {d : Int} {d1 d2 : Data}
    (h1 : (d, d1) ∈ de) (h2 : (d, d2) ∈ de) : d1 = d2 := by
  induction de with
  | nil => simp at h1
  | cons p rest ih =>
    obtain ⟨d0, data0⟩ := p
    simp only [List.map_cons, List.nodup_cons] at h
    rcases List.mem_cons.mp h1 with he1 | hm1 <;>
      rcases List.mem_cons.mp h2 with he2 | hm2
    · injection he1 with ha1 hb1
      injection he2 with ha2 hb2
      rw [hb1, hb2]
    · injection he1 with ha1 hb1
      subst ha1
      exact absurd (List.mem_map_of_mem (fun p => p.1) hm2) h.1
    · injection he2 with ha2 hb2
      subst ha2
      exact absurd (List.mem_map_of_mem (fun p => p.1) hm1) h.1
    · exact ih h.2 hm1 hm2

theorem createdList_ids (idp : String) (newElem : Elem) (pm : List PMapping)
    (hops : idp ∉ pm.map (fun m => m.2.1)) :
    ∀ (de : List (Int × Data)) (occ : Int → Bool) (npk : Nat),
      (createdList idp newElem pm de occ npk).map (fun e => getattr e idp) =
        (de.filter (fun p => !occ p.1)).map (fun p => Val.vint p.1) := by
  intro de
  induction de with
  | nil => intro occ npk; simp [createdList]
  | cons p rest ih =>
    intro occ npk
    obtain ⟨d, data⟩ := p
    simp only [createdList, List.filter_cons]
    by_cases h : occ d = true
    · rw [if_pos h, if_neg (by simp [h]), ih occ npk]
    · rw [if_neg h, if_pos (by simp [h])]
      simp only [List.map_cons]
      rw [ih occ (npk + 1)]
      congr 1
      rw [getattr_set_pk, uop_getattr_notin _ _ _ _ hops, getattr_setattr_self]

/-! ### `update_list_of` without integrity errors, with a pure mapping -/

theorem update_list_of_ok_spec (idp idd : String) (newElem : Elem)
    (pm : List PMapping) (st : Table) (npk : Nat) (json : List Data)
    (de : List (Int × Data))
    (hops : idp ∉ pm.map (fun m => m.2.1))
    (hopnd : (pm.map (fun m => m.2.1)).Nodup)
    (hvint : ∀ e ∈ st, ∃ n : Int, getattr e idp = .vint n)
    (hids : (st.map (fun e => getattr e idp)).Nodup)
    (hpks : (st.map (fun e => e.pk)).Nodup)
    (hfresh : ∀ e ∈ st, e.pk < npk)
    (hde : buildDataElems idd json = some de) :
    ∃ chR crR mdR dlR,
      update_list_of idp idd newElem (liftPM pm) okOracle st npk json =
        some ⟨(st.filter (fun e => (de.map (fun p => p.1)).any
                (fun d => valEqInt (getattr e idp) d))).map (updIfMatch idp pm de) ++
              createdList idp newElem pm de
                (occOf idp (st.filter (fun e => (de.map (fun p => p.1)).any
                  (fun d => valEqInt (getattr e idp) d)))) npk,
          npk + (createdList idp newElem pm de
                (occOf idp (st.filter (fun e => (de.map (fun p => p.1)).any
                  (fun d => valEqInt (getattr e idp) d)))) npk).length,
          chR, 0, [], dlR, crR, mdR⟩ := by
  have hkeys := buildDataElems_nodup idd json de hde
  have hsub : List.Sublist (st.filter (fun e => (de.map (fun p => p.1)).any
      (fun d => valEqInt (getattr e idp) d))) st := List.filter_sublist st
  obtain ⟨chR, crR, mdR, heq⟩ := dataLoop_ok idp newElem pm hops hopnd
    (st.countP (fun e => !(de.map (fun p => p.1)).any
      (fun d => valEqInt (getattr e idp) d)))
    de
    (st.filter (fun e => (de.map (fun p => p.1)).any
      (fun d => valEqInt (getattr e idp) d)))
    npk
    (st.any (fun e => !(de.map (fun p => p.1)).any
      (fun d => valEqInt (getattr e idp) d)))
    0 [] 0 0
    (fun e he => hvint e (List.mem_of_mem_filter he))
    (hids.sublist (hsub.map _))
    (hpks.sublist (hsub.map _))
    (fun e he => hfresh e (List.mem_of_mem_filter he))
    hkeys
  refine ⟨chR, crR, mdR, st.countP (fun e => !(de.map (fun p => p.1)).any
    (fun d => valEqInt (getattr e idp) d)), ?_⟩
  simp only [update_list_of, hde]
  rw [deleteLoop_spec (de.map (fun p => p.1)) idp st hids hpks]
  exact congrArg some heq

/-! ### `update_list_of` on an already synchronized collection -/

theorem update_list_of_synced (idp idd : String) (newElem : Elem)
    (pm : List PMapping) (oracle : Int → SaveOutcome) (st : Table) (npk : Nat)
    (json : List Data) (de : List (Int × Data))
    (hids : (st.map (fun e => getattr e idp)).Nodup)
    (hpks : (st.map (fun e => e.pk)).Nodup)
    (hde : buildDataElems idd json = some de)
    (hall : ∀ e ∈ st, (de.map (fun p => p.1)).any
      (fun d => valEqInt (getattr e idp) d) = true)
    (hex : ∀ p ∈ de, ∃ e ∈ st, valEqInt (getattr e idp) p.1 = true)
    (hupd : ∀ p ∈ de, ∀ e ∈ st, valEqInt (getattr e idp) p.1 = true →
      update_object_pure e pm p.2 = (e, false)) :
    update_list_of idp idd newElem (liftPM pm) oracle st npk json =
      some ⟨st, npk, false, 0, [], 0, 0, 0⟩ := by
  simp only [update_list_of, hde]
  rw [deleteLoop_spec (de.map (fun p => p.1)) idp st hids hpks]
  have hfilter : st.filter (fun e => (de.map (fun p => p.1)).any
      (fun d => valEqInt (getattr e idp) d)) = st :=
    List.filter_eq_self.mpr hall
  have hany : st.any (fun e => !(de.map (fun p => p.1)).any
      (fun d => valEqInt (getattr e idp) d)) = false := by
    rw [List.any_eq_false]
    intro e he
    simp [hall e he]
  have hcount : st.countP (fun e => !(de.map (fun p => p.1)).any
      (fun d => valEqInt (getattr e idp) d)) = 0 := by
    rw [List.countP_eq_zero]
    intro e he
    simp [hall e he]
  simp only [hfilter, hany, hcount]
  exact congrArg some
    (dataLoop_synced idp newElem pm oracle 0 st npk de false 0 [] 0 0 hex hupd)

/-! ### Claim C1 -/

/-- **C1**: for every completed `update_list_of` run (no integrity errors,
pure property mapping, well-formed collection), the related collection is
reconciled against `json_data` as a set-diff keyed by numeric id: (a) every
local element whose id is not among the integer-coerced ids of `json_data` is
deleted; (b) for every data id with no local element, a new element is created
from `new_elem_func` with the id field set to `int(data_elem[id_property_data])`
and the mapped properties applied; (c) every element whose id appears in both
has each mapped property set to the transform-applied data value — matching is
by the integer coercion, so a decimal string id matches the local element
whose id field is the corresponding integer. -/
theorem C1_update_list_of_set_diff
    (idp idd : String) (newElem : Elem) (pm : List PMapping) (st : Table)
    (npk : Nat) (json : List Data) (de : List (Int × Data)) (r : ULResult)
    (hops : idp ∉ pm.map (fun m => m.2.1))
    (hopnd : (pm.map (fun m => m.2.1)).Nodup)
    (hvint : ∀ e ∈ st, ∃ n : Int, getattr e idp = .vint n)
    (hids : (st.map (fun e => getattr e idp)).Nodup)
    (hpks : (st.map (fun e => e.pk)).Nodup)
    (hfresh : ∀ e ∈ st, e.pk < npk)
    (hde : buildDataElems idd json = some de)
    (hrun : update_list_of idp idd newElem (liftPM pm) okOracle st npk json =
      some r) :
    (∀ e ∈ st, (∀ p ∈ de, valEqInt (getattr e idp) p.1 = false) →
      ∀ e' ∈ r.state, e'.pk ≠ e.pk) ∧
    (∀ p ∈ de, (∀ e ∈ st, valEqInt (getattr e idp) p.1 = false) →
      ∃ e' ∈ r.state, getattr e' idp = .vint p.1 ∧
        e'.fields =
          ((update_object_pure (setattr newElem idp (.vint p.1)) pm p.2).1).fields) ∧
    (∀ p ∈ de, ∀ e ∈ st, valEqInt (getattr e idp) p.1 = true →
      ∃ e' ∈ r.state, e'.pk = e.pk ∧ propsEqual pm e' p.2) := by
  have hkeys := buildDataElems_nodup idd json de hde
  obtain ⟨chR, crR, mdR, dlR, heq⟩ :=
    update_list_of_ok_spec idp idd newElem pm st npk json de hops hopnd hvint
      hids hpks hfresh hde
  rw [hrun] at heq
  injection heq with heq
  have hstate : r.state =
      (st.filter (fun e => (de.map (fun p => p.1)).any
        (fun d => valEqInt (getattr e idp) d))).map (updIfMatch idp pm de) ++
      createdList idp newElem pm de
        (occOf idp (st.filter (fun e => (de.map (fun p => p.1)).any
          (fun d => valEqInt (getattr e idp) d)))) npk := by
    rw [heq]
  refine ⟨?_, ?_, ?_⟩
  · -- (a) deletion
    intro e he hnomatch e' he' hcon
    rw [hstate] at he'
    rcases List.mem_append.mp he' with he' | he'
    · obtain ⟨x, hx, rfl⟩ := List.mem_map.mp he'
      have hxpk : x.pk = e.pk := by rw [← updIfMatch_pk idp pm de x, hcon]
      have hxe : x = e :=
        List.inj_on_of_nodup_map hpks (List.mem_of_mem_filter hx) he hxpk
      subst hxe
      have hpred := List.of_mem_filter hx
      obtain ⟨dk, hdk, hmk⟩ := List.any_eq_true.mp hpred
      obtain ⟨p, hp, rfl⟩ := List.mem_map.mp hdk
      exact absurd hmk (by rw [hnomatch p hp]; simp)
    · obtain ⟨d0, data0, _, _, hle, _⟩ := createdList_mem idp newElem pm de _ npk e' he'
      have := hfresh e he
      omega
  · -- (b) creation
    intro p hp hnolocal
    obtain ⟨d, data⟩ := p
    have hocc : occOf idp (st.filter (fun e => (de.map (fun p => p.1)).any
        (fun d => valEqInt (getattr e idp) d))) d = false := by
      rw [occOf, List.any_eq_false]
      intro x hx
      rw [hnolocal x (List.mem_of_mem_filter hx)]
      simp
    obtain ⟨e', he', hf⟩ := createdList_covers idp newElem pm de _ npk d data hp hocc
    refine ⟨e', by rw [hstate]; exact List.mem_append_right _ he', ?_, hf⟩
    rw [getattr_fields_congr hf idp, uop_getattr_notin _ _ _ _ hops,
      getattr_setattr_self]
  · -- (c) update
    intro p hp e he hmatch
    obtain ⟨d, data⟩ := p
    have hmem1 : e ∈ st.filter (fun e => (de.map (fun p => p.1)).any
        (fun d => valEqInt (getattr e idp) d)) :=
      List.mem_filter.mpr ⟨he,
        List.any_eq_true.mpr ⟨d, List.mem_map_of_mem (fun p => p.1) hp, hmatch⟩⟩
    obtain ⟨n, hn0⟩ := hvint e he
    have hnd : n = d := eq_of_valEqInt_vint (by rwa [hn0] at hmatch)
    have hn : getattr e idp = .vint d := by rw [hn0, hnd]
    refine ⟨updIfMatch idp pm de e,
      by rw [hstate]; exact List.mem_append_left _ (List.mem_map_of_mem _ hmem1),
      updIfMatch_pk idp pm de e, ?_⟩
    rw [updIfMatch_of_some idp pm de e (d, data)
      (findData_of_mem idp de d data e hkeys hp hn)]
    exact uop_props e pm data hopnd

/-- Witness for C1: json data with the string id `"7"` matches and updates in
place the local element whose id field is the integer `7`. -/
theorem C1_update_list_of_set_diff_witness :
    ∃ e' ∈ ([⟨1, [("id", Val.vint 7), ("v", Val.vint 5)]⟩] : Table),
      e'.pk = 1 ∧
      propsEqual [("v", "v", none)] e' [("id", Val.vstr "7"), ("v", Val.vint 5)] := by
  have h := C1_update_list_of_set_diff "id" "id" ⟨0, []⟩ [("v", "v", none)]
    [⟨1, [("id", Val.vint 7), ("v", Val.vint 0)]⟩] 2
    [[("id", Val.vstr "7"), ("v", Val.vint 5)]]
    [(7, [("id", Val.vstr "7"), ("v", Val.vint 5)])]
    ⟨[⟨1, [("id", Val.vint 7), ("v", Val.vint 5)]⟩], 2, true, 0, [], 0, 0, 1⟩
    (by decide) (by decide)
    (by
      intro e he
      rw [List.mem_singleton] at he
      subst he
      exact ⟨7, rfl⟩)
    (by decide) (by decide) (by decide) (by decide) (by decide)
  exact h.2.2 (7, [("id", Val.vstr "7"), ("v", Val.vint 5)]) (by decide)
    ⟨1, [("id", Val.vint 7), ("v", Val.vint 0)]⟩ (by decide) (by decide)

/-! ### Claim C2 -/

/-- **C2**: `update_list_of` returns `{'changes': c}` where `c` is true
exactly when at least one element was deleted, created-and-saved, or had a
mapped property modified (first conjunct, for every oracle and mapping); and
when the collection already matches the data under the property mapping, `c`
is false and no element is saved or deleted — the collection is returned
untouched (second conjunct). -/
theorem C2_changes_flag :
    (∀ (idp idd : String) (newElem : Elem) (pm : List Mapping)
      (oracle : Int → SaveOutcome) (st : Table) (npk : Nat)
      (json : List Data) (r : ULResult),
      update_list_of idp idd newElem pm oracle st npk json = some r →
      (r.changes = true ↔ 0 < r.deleted + r.created + r.modified)) ∧
    (∀ (idp idd : String) (newElem : Elem) (pm : List PMapping)
      (oracle : Int → SaveOutcome) (st : Table) (npk : Nat)
      (json : List Data) (de : List (Int × Data)),
      (st.map (fun e => getattr e idp)).Nodup →
      (st.map (fun e => e.pk)).Nodup →
      buildDataElems idd json = some de →
      (∀ e ∈ st, (de.map (fun p => p.1)).any
        (fun d => valEqInt (getattr e idp) d) = true) →
      (∀ p ∈ de, ∃ e ∈ st, valEqInt (getattr e idp) p.1 = true) →
      (∀ p ∈ de, ∀ e ∈ st, valEqInt (getattr e idp) p.1 = true →
        update_object_pure e pm p.2 = (e, false)) →
      update_list_of idp idd newElem (liftPM pm) oracle st npk json =
        some ⟨st, npk, false, 0, [], 0, 0, 0⟩) := by
  constructor
  · intro idp idd newElem pm oracle st npk json r hrun
    cases hde : buildDataElems idd json with
    | none => rw [update_list_of, hde] at hrun; exact absurd hrun (by simp)
    | some de =>
      simp only [update_list_of, hde] at hrun
      obtain ⟨k, hk1, hk2⟩ := deleteLoop_changes (de.map (fun p => p.1))
        (buildOriginalElems idp st) st false 0
      obtain ⟨c, m, h1, h2, h3, h4⟩ := dataLoop_changes idp newElem pm oracle
        (deleteLoop (de.map (fun p => p.1)) (buildOriginalElems idp st) st false 0).2.2
        de
        (deleteLoop (de.map (fun p => p.1)) (buildOriginalElems idp st) st false 0).1
        npk
        (deleteLoop (de.map (fun p => p.1)) (buildOriginalElems idp st) st false 0).2.1
        0 [] 0 0
      injection hrun with hr
      rw [← hr, h1, h2, h3, h4, hk1, hk2]
      simp only [Nat.zero_add, Bool.false_or, Bool.or_eq_true,
        decide_eq_true_eq]
      omega
  · intro idp idd newElem pm oracle st npk json de hids hpks hde hall hex hupd
    exact update_list_of_synced idp idd newElem pm oracle st npk json de hids
      hpks hde hall hex hupd

/-- Witness for C2: a collection that already matches the data yields
`changes = false`, no saves, no deletions. -/
theorem C2_changes_flag_witness :
    update_list_of "id" "id" ⟨0, []⟩ (liftPM [("v", "v", none)]) okOracle
      [⟨1, [("id", Val.vint 3), ("v", Val.vint 9)]⟩] 2
      [[("id", Val.vint 3), ("v", Val.vint 9)]] =
      some ⟨[⟨1, [("id", Val.vint 3), ("v", Val.vint 9)]⟩], 2, false, 0, [],
        0, 0, 0⟩ :=
  C2_changes_flag.2 "id" "id" ⟨0, []⟩ [("v", "v", none)] okOracle
    [⟨1, [("id", Val.vint 3), ("v", Val.vint 9)]⟩] 2
    [[("id", Val.vint 3), ("v", Val.vint 9)]]
    [(3, [("id", Val.vint 3), ("v", Val.vint 9)])]
    (by decide) (by decide) (by decide) (by decide) (by decide) (by decide)

/-! ### Claim C8 -/

/-- **C8**: `update_list_of` is idempotent: running it again on the collection
a completed first run produced, with the same data and the same deterministic
(pure) property mapping and no intervening changes, modifies no element,
deletes nothing, creates nothing, and returns `{'changes': False}`. -/
theorem C8_update_list_of_idempotent
    (idp idd : String) (newElem : Elem) (pm : List PMapping) (st : Table)
    (npk : Nat) (json : List Data) (de : List (Int × Data)) (r : ULResult)
    (hops : idp ∉ pm.map (fun m => m.2.1))
    (hopnd : (pm.map (fun m => m.2.1)).Nodup)
    (hvint : ∀ e ∈ st, ∃ n : Int, getattr e idp = .vint n)
    (hids : (st.map (fun e => getattr e idp)).Nodup)
    (hpks : (st.map (fun e => e.pk)).Nodup)
    (hfresh : ∀ e ∈ st, e.pk < npk)
    (hde : buildDataElems idd json = some de)
    (hrun : update_list_of idp idd newElem (liftPM pm) okOracle st npk json =
      some r) :
    update_list_of idp idd newElem (liftPM pm) okOracle r.state r.nextPk json =
      some ⟨r.state, r.nextPk, false, 0, [], 0, 0, 0⟩ := by
  have hkeys := buildDataElems_nodup idd json de hde
  obtain ⟨chR, crR, mdR, dlR, heq⟩ :=
    update_list_of_ok_spec idp idd newElem pm st npk json de hops hopnd hvint
      hids hpks hfresh hde
  rw [hrun] at heq
  injection heq with heq
  have hstate : r.state =
      (st.filter (fun e => (de.map (fun p => p.1)).any
        (fun d => valEqInt (getattr e idp) d))).map (updIfMatch idp pm de) ++
      createdList idp newElem pm de
        (occOf idp (st.filter (fun e => (de.map (fun p => p.1)).any
          (fun d => valEqInt (getattr e idp) d)))) npk := by rw [heq]
  have hsub : List.Sublist (st.filter (fun e => (de.map (fun p => p.1)).any
      (fun d => valEqInt (getattr e idp) d))) st := List.filter_sublist st
  have hvint1 : ∀ e ∈ st.filter (fun e => (de.map (fun p => p.1)).any
      (fun d => valEqInt (getattr e idp) d)), ∃ n : Int, getattr e idp = .vint n :=
    fun e he => hvint e (List.mem_of_mem_filter he)
  have hids1 : ((st.filter (fun e => (de.map (fun p => p.1)).any
      (fun d => valEqInt (getattr e idp) d))).map (fun e => getattr e idp)).Nodup :=
    hids.sublist (hsub.map _)
  have hpks1 : ((st.filter (fun e => (de.map (fun p => p.1)).any
      (fun d => valEqInt (getattr e idp) d))).map (fun e => e.pk)).Nodup :=
    hpks.sublist (hsub.map _)
  have hfresh1 : ∀ e ∈ st.filter (fun e => (de.map (fun p => p.1)).any
      (fun d => valEqInt (getattr e idp) d)), e.pk < npk :=
    fun e he => hfresh e (List.mem_of_mem_filter he)
  -- every element of the final collection carries the id and properties of
  -- exactly one data entry
  have hchar : ∀ e' ∈ r.state, ∃ d data, (d, data) ∈ de ∧
      getattr e' idp = .vint d ∧ propsEqual pm e' data := by
    intro e' he'
    rw [hstate] at he'
    rcases List.mem_append.mp he' with he' | he'
    · obtain ⟨x, hx, rfl⟩ := List.mem_map.mp he'
      obtain ⟨n, hn⟩ := hvint1 x hx
      have hpred := List.of_mem_filter hx
      obtain ⟨dk, hdk, hmk⟩ := List.any_eq_true.mp hpred
      obtain ⟨p, hp, hp1⟩ := List.mem_map.mp hdk
      obtain ⟨d0, data0⟩ := p
      have hnd0 : n = d0 := by
        have : valEqInt (getattr x idp) d0 = true := by rw [← hp1] at hmk; exact hmk
        exact eq_of_valEqInt_vint (by rwa [hn] at this)
      have hnval : getattr x idp = .vint d0 := by rw [hn, hnd0]
      refine ⟨d0, data0, hp, ?_, ?_⟩
      · rw [updIfMatch_id idp pm de x hops, hnval]
      · rw [updIfMatch_of_some idp pm de x (d0, data0)
          (findData_of_mem idp de d0 data0 x hkeys hp hnval)]
        exact uop_props x pm data0 hopnd
    · obtain ⟨d0, data0, hp, hocc, hle, hf⟩ :=
        createdList_mem idp newElem pm de _ npk e' he'
      refine ⟨d0, data0, hp, ?_, ?_⟩
      · rw [getattr_fields_congr hf idp, uop_getattr_notin _ _ _ _ hops,
          getattr_setattr_self]
      · exact propsEqual_fields hf.symm (uop_props _ pm data0 hopnd)
  -- every data id finds a matching element
  have hex2 : ∀ p ∈ de, ∃ e' ∈ r.state, valEqInt (getattr e' idp) p.1 = true := by
    intro p hp
    obtain ⟨d, data⟩ := p
    by_cases hocc : occOf idp (st.filter (fun e => (de.map (fun p => p.1)).any
        (fun d => valEqInt (getattr e idp) d))) d = true
    · unfold occOf at hocc
      obtain ⟨x, hx, hm⟩ := List.any_eq_true.mp hocc
      refine ⟨updIfMatch idp pm de x,
        by rw [hstate]; exact List.mem_append_left _ (List.mem_map_of_mem _ hx), ?_⟩
      rw [updIfMatch_id idp pm de x hops]
      exact hm
    · obtain ⟨e', he', hf⟩ := createdList_covers idp newElem pm de _ npk d data hp
        (by simpa using hocc)
      refine ⟨e', by rw [hstate]; exact List.mem_append_right _ he', ?_⟩
      rw [getattr_fields_congr hf idp, uop_getattr_notin _ _ _ _ hops,
        getattr_setattr_self, valEqInt_vint]
      simp
  -- every element matches some data id (nothing left to delete)
  have hall2 : ∀ e' ∈ r.state, (de.map (fun p => p.1)).any
      (fun d => valEqInt (getattr e' idp) d) = true := by
    intro e' he'
    obtain ⟨d, data, hp, hid, _⟩ := hchar e' he'
    exact List.any_eq_true.mpr ⟨d, List.mem_map_of_mem (fun p => p.1) hp,
      by rw [hid, valEqInt_vint]; simp⟩
  -- every matching element is already up to date
  have hupd2 : ∀ p ∈ de, ∀ e' ∈ r.state, valEqInt (getattr e' idp) p.1 = true →
      update_object_pure e' pm p.2 = (e', false) := by
    intro p hp e' he' hm
    obtain ⟨d, data, hp0, hid, hprops⟩ := hchar e' he'
    obtain ⟨dp, datap⟩ := p
    have hdd : d = dp := eq_of_valEqInt_vint (by rwa [hid] at hm)
    have hdata : data = datap := keys_nodup_unique hkeys (hdd ▸ hp0) hp
    exact uop_of_propsEqual _ _ _ (hdata ▸ hprops)
  -- distinct ids in the final collection
  have hmapids : ((st.filter (fun e => (de.map (fun p => p.1)).any
      (fun d => valEqInt (getattr e idp) d))).map (updIfMatch idp pm de)).map
        (fun e => getattr e idp) =
      (st.filter (fun e => (de.map (fun p => p.1)).any
        (fun d => valEqInt (getattr e idp) d))).map (fun e => getattr e idp) := by
    rw [List.map_map]
    exact List.map_congr_left (fun x _ => updIfMatch_id idp pm de x hops)
  have hclids := createdList_ids idp newElem pm hops de
    (occOf idp (st.filter (fun e => (de.map (fun p => p.1)).any
      (fun d => valEqInt (getattr e idp) d)))) npk
  have hids2 : (r.state.map (fun e => getattr e idp)).Nodup := by
    rw [hstate, List.map_append]
    refine List.Nodup.append ?_ ?_ ?_
    · rw [hmapids]; exact hids1
    · rw [hclids]
      have hkf : ((de.filter (fun p => !(occOf idp (st.filter
          (fun e => (de.map (fun p => p.1)).any
            (fun d => valEqInt (getattr e idp) d)))) p.1)).map (fun p => p.1)).Nodup :=
        hkeys.sublist ((List.filter_sublist de).map _)
      have : (de.filter (fun p => !(occOf idp (st.filter
          (fun e => (de.map (fun p => p.1)).any
            (fun d => valEqInt (getattr e idp) d)))) p.1)).map (fun p => Val.vint p.1) =
          ((de.filter (fun p => !(occOf idp (st.filter
            (fun e => (de.map (fun p => p.1)).any
              (fun d => valEqInt (getattr e idp) d)))) p.1)).map (fun p => p.1)).map
            Val.vint := by
        rw [List.map_map]
        rfl
      rw [this]
      exact hkf.map (fun a b hab => by injection hab)
    · intro a ha hb
      rw [hmapids] at ha
      rw [hclids] at hb
      obtain ⟨x, hx, rfl⟩ := List.mem_map.mp ha
      obtain ⟨q, hq, hqe⟩ := List.mem_map.mp hb
      have hqf := List.of_mem_filter hq
      have hocc : occOf idp (st.filter (fun e => (de.map (fun p => p.1)).any
          (fun d => valEqInt (getattr e idp) d))) q.1 = true :=
        List.any_eq_true.mpr ⟨x, hx, by rw [← hqe, valEqInt_vint]; simp⟩
      rw [hocc] at hqf
      simp at hqf
  -- distinct primary keys in the final collection
  have hmappks : ((st.filter (fun e => (de.map (fun p => p.1)).any
      (fun d => valEqInt (getattr e idp) d))).map (updIfMatch idp pm de)).map
        (fun e => e.pk) =
      (st.filter (fun e => (de.map (fun p => p.1)).any
        (fun d => valEqInt (getattr e idp) d))).map (fun e => e.pk) := by
    rw [List.map_map]
    exact List.map_congr_left (fun x _ => updIfMatch_pk idp pm de x)
  have hclpks := createdList_pks idp newElem pm de
    (occOf idp (st.filter (fun e => (de.map (fun p => p.1)).any
      (fun d => valEqInt (getattr e idp) d)))) npk
  have hpks2 : (r.state.map (fun e => e.pk)).Nodup := by
    rw [hstate, List.map_append]
    refine List.Nodup.append ?_ ?_ ?_
    · rw [hmappks]; exact hpks1
    · rw [hclpks]; exact List.nodup_range' npk _
    · intro a ha hb
      rw [hmappks] at ha
      rw [hclpks] at hb
      obtain ⟨x, hx, rfl⟩ := List.mem_map.mp ha
      have h1 := (List.mem_range'_1.mp hb).1
      have h2 := hfresh1 x hx
      omega
  exact update_list_of_synced idp idd newElem pm okOracle r.state r.nextPk
    json de hids2 hpks2 hde hall2 hex2 hupd2

/-- Witness for C8: a concrete second run (after a run that updated one
element and created another) changes nothing. -/
theorem C8_update_list_of_idempotent_witness :
    update_list_of "id" "id" ⟨0, []⟩ (liftPM [("v", "v", none)]) okOracle
      (({ state := [⟨1, [("id", Val.vint 7), ("v", Val.vint 5)]⟩,
            ⟨2, [("id", Val.vint 9), ("v", Val.vint 1)]⟩],
          nextPk := 3, changes := true, emails := 0, missing := [],
          deleted := 0, created := 1, modified := 1 } : ULResult)).state
      (({ state := [⟨1, [("id", Val.vint 7), ("v", Val.vint 5)]⟩,
            ⟨2, [("id", Val.vint 9), ("v", Val.vint 1)]⟩],
          nextPk := 3, changes := true, emails := 0, missing := [],
          deleted := 0, created := 1, modified := 1 } : ULResult)).nextPk
      [[("id", Val.vstr "7"), ("v", Val.vint 5)],
       [("id", Val.vint 9), ("v", Val.vint 1)]] =
      some ⟨[⟨1, [("id", Val.vint 7), ("v", Val.vint 5)]⟩,
        ⟨2, [("id", Val.vint 9), ("v", Val.vint 1)]⟩], 3, false, 0, [],
        0, 0, 0⟩ :=
  C8_update_list_of_idempotent "id" "id" ⟨0, []⟩ [("v", "v", none)]
    [⟨1, [("id", Val.vint 7), ("v", Val.vint 0)]⟩] 2
    [[("id", Val.vstr "7"), ("v", Val.vint 5)],
     [("id", Val.vint 9), ("v", Val.vint 1)]]
    [(7, [("id", Val.vstr "7"), ("v", Val.vint 5)]),
     (9, [("id", Val.vint 9), ("v", Val.vint 1)])]
    ⟨[⟨1, [("id", Val.vint 7), ("v", Val.vint 5)]⟩,
      ⟨2, [("id", Val.vint 9), ("v", Val.vint 1)]⟩], 3, true, 0, [], 0, 1, 1⟩
    (by decide) (by decide)
    (by
      intro e he
      rw [List.mem_singleton] at he
      subst he
      exact ⟨7, rfl⟩)
    (by decide) (by decide) (by decide) (by decide) (by decide)

/-! ### Pagination -/

theorem paginatedAux_short {α : Type} (req : PageReq α) (limit n : Nat)
    (herr : (req n).1 = none) (hshort : (req n).2.length < limit) :
    ∀ (fuel page : Nat) (acc : List α),
      1 ≤ page → page ≤ n → n - page < fuel →
      (∀ p, page ≤ p → p < n → (req p).1 = none ∧ ¬((req p).2.length < limit)) →
      paginatedAux req limit fuel page acc =
        some (none, acc ++
          ((List.range' page (n - page + 1)).map (fun p => (req p).2)).flatten) := by
  intro fuel
  induction fuel with
  | zero => intro page acc _ _ hlt _; omega
  | succ fuel ih =>
    intro page acc h1 hle hlt hpre
    by_cases hpn : page = n
    · subst hpn
      simp only [paginatedAux, herr, if_pos hshort, Nat.sub_self,
        List.range'_succ, List.range'_zero, List.map_cons, List.map_nil,
        List.flatten]
      simp
    · have hplt : page < n := Nat.lt_of_le_of_ne hle hpn
      obtain ⟨hge, hgl⟩ := hpre page (Nat.le_refl _) hplt
      simp only [paginatedAux, hge, if_neg hgl]
      rw [ih (page + 1) (acc ++ (req page).2) (by omega) (by omega) (by omega)
        (fun p hp1 hp2 => hpre p (by omega) hp2)]
      have hrange : List.range' page (n - page + 1) =
          page :: List.range' (page + 1) (n - (page + 1) + 1) := by
        have : n - page + 1 = (n - (page + 1) + 1) + 1 := by omega
        rw [this, List.range'_succ]
      rw [hrange]
      simp [List.flatten]

theorem paginatedAux_error {α : Type} (req : PageReq α) (limit n : Nat)
    (e : String) (herr : (req n).1 = some e) :
    ∀ (fuel page : Nat) (acc : List α),
      1 ≤ page → page ≤ n → n - page < fuel →
      (∀ p, page ≤ p → p < n → (req p).1 = none ∧ ¬((req p).2.length < limit)) →
      paginatedAux req limit fuel page acc =
        some (some e, acc ++
          ((List.range' page (n - page)).map (fun p => (req p).2)).flatten) := by
  intro fuel
  induction fuel with
  | zero => intro page acc _ _ hlt _; omega
  | succ fuel ih =>
    intro page acc h1 hle hlt hpre
    by_cases hpn : page = n
    · subst hpn
      simp only [paginatedAux, herr, Nat.sub_self, List.range'_zero,
        List.map_nil, List.flatten]
      simp
    · have hplt : page < n := Nat.lt_of_le_of_ne hle hpn
      obtain ⟨hge, hgl⟩ := hpre page (Nat.le_refl _) hplt
      simp only [paginatedAux, hge, if_neg hgl]
      rw [ih (page + 1) (acc ++ (req page).2) (by omega) (by omega) (by omega)
        (fun p hp1 hp2 => hpre p (by omega) hp2)]
      have hrange : List.range' page (n - page) =
          page :: List.range' (page + 1) (n - (page + 1)) := by
        have : n - page = (n - (page + 1)) + 1 := by omega
        rw [this, List.range'_succ]
      rw [hrange]
      simp [List.flatten]

/-! ### Claim C3 -/

/-- **C3**: `weebly_request_paginated` requests consecutive pages starting at
page 1; when the first `n - 1` pages succeed with full pages (at least
`limit_count` items each), then: if page `n` succeeds with fewer than
`limit_count` items, the call returns `({}, L)` with `L` the concatenation of
the pages `1..n` in order; if page `n` yields an error, it returns that error
dictionary together with the items of the earlier pages `1..n-1` only. -/
theorem C3_weebly_request_paginated {α : Type} (req : PageReq α)
    (limit_count n fuel : Nat) (hn : 1 ≤ n) (hfuel : n ≤ fuel)
    (hpre : ∀ p, 1 ≤ p → p < n →
      (req p).1 = none ∧ ¬((req p).2.length < limit_count)) :
    ((req n).1 = none → (req n).2.length < limit_count →
      weebly_request_paginated req limit_count fuel =
        some (none, ((List.range' 1 n).map (fun p => (req p).2)).flatten)) ∧
    (∀ e, (req n).1 = some e →
      weebly_request_paginated req limit_count fuel =
        some (some e, ((List.range' 1 (n - 1)).map (fun p => (req p).2)).flatten)) := by
  constructor
  · intro herr hshort
    unfold weebly_request_paginated
    rw [paginatedAux_short req limit_count n herr hshort fuel 1 []
      (Nat.le_refl _) hn (by omega) hpre]
    have : n - 1 + 1 = n := by omega
    rw [this]
    simp
  · intro e herr
    unfold weebly_request_paginated
    rw [paginatedAux_error req limit_count n e herr fuel 1 []
      (Nat.le_refl _) hn (by omega) hpre]
    simp

/-- Witness for C3: a single short page is returned as-is with no error. -/
theorem C3_weebly_request_paginated_witness :
    weebly_request_paginated (fun _ => ((none : Option String), [42])) 2 1 =
      some (none, [42]) := by
  have h := (C3_weebly_request_paginated (fun _ => ((none : Option String), [42]))
    2 1 1 (by omega) (by omega)
    (fun p h1 h2 => absurd (Nat.lt_of_le_of_lt h1 h2) (by omega))).1 rfl
    (by decide)
  simpa using h

/-! ### Claim C4 -/

/-- **C4**: for a response with non-200 status and an `error` field, the
handler classifies the error as expected exactly when the built message
contains one of the caller-supplied `expected_errors` strings or the fixed
string `Unknown api key`; the classification log line is WARN level for
expected errors and ERROR level otherwise; in both cases the returned `rv`
dictionary carries an `error` entry; and a body that is not valid JSON yields
`{'error': 'invalid JSON response'}`. -/
theorem C4_handle_response_classification
    (selfStr action_name : String) (expected_errors : List String)
    (status_code : Nat) (resp_error : String) (is_valid : Bool)
    (hstatus : status_code ≠ 200) :
    ((handle_response selfStr action_name expected_errors status_code
        (some (some resp_error)) is_valid).classifyLog = some .warn ↔
      ((∃ err ∈ expected_errors,
          strContains (action_name ++ " - " ++ resp_error ++ " - " ++ selfStr)
            err = true) ∨
        strContains (action_name ++ " - " ++ resp_error ++ " - " ++ selfStr)
          "Unknown api key" = true)) ∧
    ((handle_response selfStr action_name expected_errors status_code
        (some (some resp_error)) is_valid).classifyLog = some .error ↔
      ¬((∃ err ∈ expected_errors,
          strContains (action_name ++ " - " ++ resp_error ++ " - " ++ selfStr)
            err = true) ∨
        strContains (action_name ++ " - " ++ resp_error ++ " - " ++ selfStr)
          "Unknown api key" = true)) ∧
    ((handle_response selfStr action_name expected_errors status_code
        (some (some resp_error)) is_valid).rv_error =
      some ("Error " ++ action_name ++ " - " ++ resp_error)) ∧
    (handle_response selfStr action_name expected_errors status_code none
        is_valid =
      ⟨some "invalid JSON response", none, is_valid⟩) := by
  have hbeq : (status_code == 200) = false := by
    simpa using hstatus
  have hexp : ((expected_errors ++ ["Unknown api key"]).any
      (fun e => strContains (action_name ++ " - " ++ resp_error ++ " - " ++ selfStr) e)) = true ↔
      ((∃ err ∈ expected_errors,
          strContains (action_name ++ " - " ++ resp_error ++ " - " ++ selfStr)
            err = true) ∨
        strContains (action_name ++ " - " ++ resp_error ++ " - " ++ selfStr)
          "Unknown api key" = true) := by
    rw [List.any_append, Bool.or_eq_true, List.any_eq_true]
    simp
  refine ⟨?_, ?_, ?_, ?_⟩
  · simp only [handle_response, hbeq, Bool.false_eq_true, if_false]
    rw [← hexp]
    by_cases hb : ((expected_errors ++ ["Unknown api key"]).any
        (fun e => strContains (action_name ++ " - " ++ resp_error ++ " - " ++ selfStr) e)) = true
    · simp [hb]
    · simp only [Bool.not_eq_true] at hb
      simp [hb]
  · simp only [handle_response, hbeq, Bool.false_eq_true, if_false]
    rw [← hexp]
    by_cases hb : ((expected_errors ++ ["Unknown api key"]).any
        (fun e => strContains (action_name ++ " - " ++ resp_error ++ " - " ++ selfStr) e)) = true
    · simp [hb]
    · simp only [Bool.not_eq_true] at hb
      simp [hb]
  · simp only [handle_response, hbeq, Bool.false_eq_true, if_false]
    simp [String.append_assoc]
  · rfl

/-- Witness for C4: an unexpected error is logged at ERROR level, the `rv`
dictionary carries the error, and an invalid JSON body yields the fixed error
entry. -/
theorem C4_handle_response_classification_witness :
    (handle_response "site_1" "publishing site" ["CAPTCHA"] 400
      (some (some "boom")) true).classifyLog = some LogLevel.error ∧
    (handle_response "site_1" "publishing site" ["CAPTCHA"] 400
      (some (some "CAPTCHA required")) true).classifyLog = some LogLevel.warn ∧
    (handle_response "site_1" "publishing site" ["CAPTCHA"] 400 none true) =
      ⟨some "invalid JSON response", none, true⟩ := by
  have h1 := C4_handle_response_classification "site_1" "publishing site"
    ["CAPTCHA"] 400 "boom" true (by omega)
  have h2 := C4_handle_response_classification "site_1" "publishing site"
    ["CAPTCHA"] 400 "CAPTCHA required" true (by omega)
  refine ⟨h1.2.1.mpr ?_, h2.1.mpr ?_, h1.2.2.2⟩
  · intro hcon
    rcases hcon with ⟨err, herr, hc⟩ | hc
    · rw [List.mem_singleton] at herr
      subst herr
      exact absurd hc (by decide)
    · exact absurd hc (by decide)
  · exact Or.inl ⟨"CAPTCHA", List.mem_singleton.mpr rfl, by decide⟩

/-! ### Claim C5 -/

/-- `update_object_pure` that reports nothing to save leaves every mapped
property already equal to the data value. -/
theorem uop_false_propsEqual (e : Elem) (pm : List PMapping) (d : Data)
    (h : (update_object_pure e pm d).2 = false) : propsEqual pm e d := by
  induction pm generalizing e with
  | nil => intro m hm; simp at hm
  | cons m rest ih =>
    obtain ⟨dp, op, f⟩ := m
    simp only [update_object_pure] at h
    intro m' hm'
    rcases List.mem_cons.mp hm' with rfl | hm'
    · by_cases hset : getattr e op ≠ applyP f (dataGet d dp)
      · rw [if_pos hset] at h
        simp at h
      · exact not_ne_iff.mp hset
    · by_cases hset : getattr e op ≠ applyP f (dataGet d dp)
      · rw [if_pos hset] at h
        simp at h
      · rw [if_neg hset] at h
        exact ih e h m' hm'

/-- **C5**: when the first save of a new element raises `IntegrityError`,
`update_list_of` re-fetches the element with that id: if a row is found it is
treated as existing and updated (no creation, no email, and afterwards its
mapped properties equal the data values); if no row is found, the admins are
emailed and only that element is skipped — the loop continues with the
remaining data elements instead of propagating the exception. -/
theorem C5_integrity_error_retry
    (idp : String) (newElem : Elem) (pm : List PMapping)
    (oracle : Int → SaveOutcome) (deleted : Nat) (d : Int) (data : Data)
    (rest : List (Int × Data)) (st : Table) (npk : Nat) (ch : Bool) (em : Nat)
    (mi : List Int) (cr md : Nat)
    (hops : idp ∉ pm.map (fun m => m.2.1))
    (hopnd : (pm.map (fun m => m.2.1)).Nodup)
    (hfind : st.find? (fun e => valEqInt (getattr e idp) d) = none) :
    (∀ ce, oracle d = .integrityError (some ce) → getattr ce idp = .vint d →
      ∃ st1 ch1 md1,
        dataLoop idp newElem (liftPM pm) oracle deleted ((d, data) :: rest)
            st npk ch em mi cr md =
          dataLoop idp newElem (liftPM pm) oracle deleted rest
            st1 (npk + 1) ch1 em mi cr md1 ∧
        ∃ e' ∈ st1, getattr e' idp = .vint d ∧ propsEqual pm e' data) ∧
    (oracle d = .integrityError none →
      dataLoop idp newElem (liftPM pm) oracle deleted ((d, data) :: rest)
          st npk ch em mi cr md =
        dataLoop idp newElem (liftPM pm) oracle deleted rest
          st npk ch (em + 1) mi cr md) := by
  constructor
  · intro ce horacle hceid
    have hceid' : getattr ({ ce with pk := npk } : Elem) idp = .vint d := hceid
    have hfind2 : (st ++ [({ ce with pk := npk } : Elem)]).find?
        (fun e => valEqInt (getattr e idp) d) =
        some ({ ce with pk := npk } : Elem) := by
      rw [List.find?_append, hfind]
      simp only [Option.none_or]
      rw [List.find?_cons_of_pos]
      rw [hceid', valEqInt_vint]
      simp
    simp only [dataLoop, hfind, horacle, update_object_lift, hfind2]
    by_cases hsave : (update_object_pure ({ ce with pk := npk } : Elem) pm data).2 = true
    · rw [if_pos hsave]
      refine ⟨dbSave (st ++ [({ ce with pk := npk } : Elem)])
        (update_object_pure ({ ce with pk := npk } : Elem) pm data).1,
        true, md + 1, rfl, ?_⟩
      refine ⟨(update_object_pure ({ ce with pk := npk } : Elem) pm data).1, ?_, ?_, ?_⟩
      · rw [dbSave_of_mem_pk _ _ ({ ce with pk := npk } : Elem)
          (List.mem_append_right st (List.mem_singleton.mpr rfl)) (uop_pk ..).symm]
        refine List.mem_map.mpr ⟨({ ce with pk := npk } : Elem),
          List.mem_append_right st (List.mem_singleton.mpr rfl), ?_⟩
        rw [if_pos (by rw [uop_pk]; simp)]
      · rw [uop_getattr_notin _ _ _ _ hops, hceid']
      · exact uop_props _ pm data hopnd
    · rw [if_neg hsave]
      simp only [Bool.not_eq_true] at hsave
      refine ⟨st ++ [({ ce with pk := npk } : Elem)], ch, md, rfl,
        ({ ce with pk := npk } : Elem),
        List.mem_append_right st (List.mem_singleton.mpr rfl), hceid', ?_⟩
      exact uop_false_propsEqual _ pm data hsave
  · intro horacle
    simp only [dataLoop, hfind, horacle, update_object_lift]

/-- Witness for C5: with an integrity error and no row on re-fetch, the loop
sends one admin email, leaves the state alone and continues. -/
theorem C5_integrity_error_retry_witness :
    dataLoop "id" ⟨0, []⟩ (liftPM [("v", "v", none)])
        (fun _ => .integrityError none) 0
        [((1 : Int), [("id", Val.vint 1)])] [] 5 false 0 [] 0 0 =
      dataLoop "id" ⟨0, []⟩ (liftPM [("v", "v", none)])
        (fun _ => .integrityError none) 0 [] [] 5 false 1 [] 0 0 :=
  (C5_integrity_error_retry "id" ⟨0, []⟩ [("v", "v", none)]
    (fun _ => .integrityError none) 0 1 [("id", Val.vint 1)] [] [] 5 false 0
    [] 0 0 (by decide) (by decide) rfl).2 rfl

/-! ### Claim C7 -/

/-- **C7**: during a pass of `refresh_store_categories`, a falsy (empty or
zero) `parent_category_id` resolves to `None` without being counted missing;
an id whose category exists in the table for the site resolves to that
category; an id with no such category resolves to `None` and is appended to
`missing_cats`; and a pass that recorded a missing id triggers another
reconciliation pass while the loop bound allows it. -/
theorem C7_parent_category_resolution (table : Table) (missing : List Int) :
    (∀ v : Val, v.falsy = true →
      parent_category_func table missing v = (.vnone, missing)) ∧
    (∀ (v : Val) (n : Int), v.falsy = false → pyToInt v = some n →
      ∀ cat, table.find? (fun e => valEqInt (getattr e "category_id") n) =
          some cat →
        parent_category_func table missing v = (.vref cat.pk, missing)) ∧
    (∀ (v : Val) (n : Int), v.falsy = false → pyToInt v = some n →
      table.find? (fun e => valEqInt (getattr e "category_id") n) = none →
        parent_category_func table missing v = (.vnone, missing ++ [n])) ∧
    (∀ (newElem : Elem) (nameTf : Val → Val) (oracle : Int → SaveOutcome)
      (json : List Data) (st : Table) (npk : Nat) (fuel : Nat) (ch : Bool)
      (em : Nat) (logAcc : List (List Int)) (r1 : ULResult),
      update_list_of "category_id" "category_id" newElem (catPm nameTf) oracle
        st npk json = some r1 →
      r1.missing ≠ [] →
      catLoopAux newElem nameTf oracle json (fuel + 1) st npk ch em logAcc =
        catLoopAux newElem nameTf oracle json fuel r1.state r1.nextPk
          (ch || r1.changes) (em + r1.emails) (logAcc ++ [r1.missing])) := by
  refine ⟨?_, ?_, ?_, ?_⟩
  · intro v hv
    simp [parent_category_func, hv]
  · intro v n hv hn cat hcat
    simp [parent_category_func, hv, hn, hcat]
  · intro v n hv hn hcat
    simp [parent_category_func, hv, hn, hcat]
  · intro newElem nameTf oracle json st npk fuel ch em logAcc r1 hrun hmiss
    conv_lhs => rw [catLoopAux]
    simp only [hrun]
    rw [if_neg (by simpa [List.isEmpty_iff] using hmiss)]

/-- Witness for C7: the falsy, resolvable and missing cases at concrete
values. -/
theorem C7_parent_category_resolution_witness :
    parent_category_func [⟨4, [("category_id", Val.vint 20)]⟩] []
        (Val.vint 0) = (.vnone, []) ∧
    parent_category_func [⟨4, [("category_id", Val.vint 20)]⟩] []
        (Val.vstr "20") = (.vref 4, []) ∧
    parent_category_func [⟨4, [("category_id", Val.vint 20)]⟩] []
        (Val.vstr "33") = (.vnone, [33]) := by
  have h := C7_parent_category_resolution
    [⟨4, [("category_id", Val.vint 20)]⟩] []
  exact ⟨h.1 (Val.vint 0) (by decide),
    h.2.1 (Val.vstr "20") 20 (by decide) (by decide)
      ⟨4, [("category_id", Val.vint 20)]⟩ (by decide),
    h.2.2.1 (Val.vstr "33") 33 (by decide) (by decide) (by decide)⟩

/-! ### Claim C9 -/

/-- **C9**: `WeeblyPaymentNotification.notify` marks the record notified
exactly when no error occurs: an already notified record yields an error
dictionary and no change; a zero gross amount marks the record notified and
returns `{}` with no outward request; otherwise the notified flags are set
exactly when the payment request returns without error, and on a request
error (or an invalid auth with no fallback) the record stays un-notified. -/
theorem C9_notify_marks_exactly_on_success (n : PaymentNotif)
    (auth_is_valid has_default_auth : Bool) (req_error : Option String)
    (now : Nat) :
    (n.notified_to_weebly = true →
      notify n auth_is_valid has_default_auth req_error now =
        ⟨n, some "trying to notify an already notified payment", 0⟩) ∧
    (n.notified_to_weebly = false →
      (((notify n auth_is_valid has_default_auth req_error now).rv_error = none) ↔
        ((notify n auth_is_valid has_default_auth req_error now).st.notified_to_weebly
          = true)) ∧
      (n.gross_amount = 0 →
        notify n auth_is_valid has_default_auth req_error now =
          ⟨pn_save { n with notified_to_weebly := true }, none, 0⟩) ∧
      (n.gross_amount ≠ 0 → auth_is_valid = false → has_default_auth = false →
        notify n auth_is_valid has_default_auth req_error now =
          ⟨n, some "Invalid weebly auth", 0⟩) ∧
      (n.gross_amount ≠ 0 → (auth_is_valid || has_default_auth) = true →
        (req_error = none →
          notify n auth_is_valid has_default_auth req_error now =
            ⟨pn_save { n with
              notified_to_weebly := true,
              notified_to_weebly_on := some now }, none, 1⟩) ∧
        (∀ e, req_error = some e →
          notify n auth_is_valid has_default_auth req_error now =
            ⟨n, some e, 1⟩))) := by
  constructor
  · intro hn
    simp [notify, hn]
  · intro hn
    refine ⟨?_, ?_, ?_, ?_⟩
    · by_cases hg : n.gross_amount = 0
      · simp [notify, hn, hg, pn_save, pre_save]
      · by_cases hauth : (!auth_is_valid && !has_default_auth) = true
        · simp [notify, hn, hg, hauth, hn]
        · cases req_error with
          | none => simp [notify, hn, hg, hauth, pn_save, pre_save]
          | some e => simp [notify, hn, hg, hauth, hn]
    · intro hg
      simp [notify, hn, hg]
    · intro hg hav hdv
      simp [notify, hn, hg, hav, hdv]
    · intro hg hor
      have hauth : (!auth_is_valid && !has_default_auth) = false := by
        cases auth_is_valid <;> cases has_default_auth <;> simp_all
      constructor
      · intro hre
        subst hre
        simp [notify, hn, hg, hauth]
      · intro e hre
        subst hre
        simp [notify, hn, hg, hauth]

/-- Witness for C9: a zero payment is marked notified with an empty `rv` and
no outward request. -/
theorem C9_notify_marks_exactly_on_success_witness :
    notify ⟨0, 0, false, none⟩ true false none 17 =
      ⟨pn_save ⟨0, 0, true, none⟩, none, 0⟩ :=
  (C9_notify_marks_exactly_on_success ⟨0, 0, false, none⟩ true false none
    17).2 rfl |>.2.1 rfl

/-! ### Claim C10 -/

/-- **C10**: every save of a `WeeblyPaymentNotification` re-establishes the
invariant `payable_amount = gross_amount * 0.3` rounded to two decimal
places, whatever `payable_amount` the caller assigned, because the `pre_save`
hook recomputes it on every save; in particular the test amounts 10 and 100
yield 3 and 30. -/
theorem C10_payable_is_30_percent (n : PaymentNotif) (q : ℚ) :
    ((pn_save { n with payable_amount := q }).payable_amount =
      to_decimal2 (n.gross_amount * (3 / 10))) ∧
    ((pn_save n).payable_amount = to_decimal2 (n.gross_amount * (3 / 10))) ∧
    (pn_save ⟨10, 0, false, none⟩).payable_amount = 3 ∧
    (pn_save ⟨100, 0, false, none⟩).payable_amount = 30 := by
  have h310 : to_decimal2 (3 / 10) = 3 / 10 := by
    unfold to_decimal2 roundHalfEven
    norm_num
  refine ⟨?_, ?_, ?_, ?_⟩
  · simp [pn_save, pre_save, h310]
  · simp [pn_save, pre_save, h310]
  · simp only [pn_save, pre_save, h310]
    unfold to_decimal2 roundHalfEven
    norm_num
  · simp only [pn_save, pre_save, h310]
    unfold to_decimal2 roundHalfEven
    norm_num

/-! ### Claim C6 -/

/-- Shape of a completed run of the category reconciliation loop: a block of
passes with missing ids, then one final pass; the final pass has no missing
ids unless the fuel ran out, and the alert email is sent exactly when the
fuel ran out with ids still missing. -/
theorem catLoopAux_spec (newElem : Elem) (nameTf : Val → Val)
    (oracle : Int → SaveOutcome) (json : List Data) :
    ∀ (fuel : Nat) (st : Table) (npk : Nat) (ch : Bool) (em : Nat)
      (logAcc : List (List Int)) (r : CatLoopResult),
      catLoopAux newElem nameTf oracle json fuel st npk ch em logAcc = some r →
      ∃ ms mlast,
        r.missingLog = logAcc ++ ms ++ [mlast] ∧
        (∀ m ∈ ms, m ≠ []) ∧
        ms.length ≤ fuel ∧
        (ms.length < fuel → mlast = []) ∧
        (r.loop_email = true ↔ (ms.length = fuel ∧ mlast ≠ [])) := by
  intro fuel
  induction fuel with
  | zero =>
    intro st npk ch em logAcc r h
    simp only [catLoopAux] at h
    cases hu : update_list_of "category_id" "category_id" newElem
        (catPm nameTf) oracle st npk json with
    | none =>
      simp only [hu] at h
      exact absurd h (by simp)
    | some r1 =>
      simp only [hu] at h
      split at h
      · next hm =>
        injection h with h
        have hmiss : r1.missing = [] := List.isEmpty_iff.mp hm
        refine ⟨[], r1.missing, by rw [← h]; simp, by simp, by simp,
          fun _ => hmiss, ?_⟩
        rw [← h]
        constructor
        · intro hc
          simp at hc
        · rintro ⟨_, hne⟩
          exact absurd hmiss hne
      · next hm =>
        injection h with h
        have hmiss : r1.missing ≠ [] := fun hc => hm (by simp [hc])
        refine ⟨[], r1.missing, by rw [← h]; simp, by simp, by simp,
          by intro hc; simp at hc, ?_⟩
        rw [← h]
        constructor
        · intro _
          exact ⟨rfl, hmiss⟩
        · intro _
          simp
  | succ fuel ih =>
    intro st npk ch em logAcc r h
    simp only [catLoopAux] at h
    cases hu : update_list_of "category_id" "category_id" newElem
        (catPm nameTf) oracle st npk json with
    | none =>
      simp only [hu] at h
      exact absurd h (by simp)
    | some r1 =>
      simp only [hu] at h
      split at h
      · next hm =>
        injection h with h
        have hmiss : r1.missing = [] := List.isEmpty_iff.mp hm
        refine ⟨[], r1.missing, by rw [← h]; simp, by simp, by simp,
          fun _ => hmiss, ?_⟩
        rw [← h]
        constructor
        · intro hc
          simp at hc
        · rintro ⟨h0, _⟩
          simp at h0
      · next hm =>
        obtain ⟨ms', mlast', hlog, hne, hlen, hlast, hmail⟩ :=
          ih r1.state r1.nextPk (ch || r1.changes) (em + r1.emails)
            (logAcc ++ [r1.missing]) r h
        refine ⟨r1.missing :: ms', mlast', ?_, ?_, ?_, ?_, ?_⟩
        · rw [hlog]
          simp
        · intro m hmem
          rcases List.mem_cons.mp hmem with rfl | hmem
          · exact fun hc => hm (by simp [hc])
          · exact hne m hmem
        · simp only [List.length_cons]
          omega
        · simp only [List.length_cons]
          intro hlt
          exact hlast (by omega)
        · rw [hmail]
          simp only [List.length_cons]
          constructor
          · rintro ⟨h1, h2⟩
            exact ⟨by omega, h2⟩
          · rintro ⟨h1, h2⟩
            exact ⟨by omega, h2⟩

/-- **C6**: after a successful paginated request, the parent-resolution
`while` loop of `refresh_store_categories` runs `update_list_of` at most 3
times: it exits as soon as a pass records no missing parent-category ids, and
the admin alert email is sent exactly when the third pass still recorded
missing ids (and the loop breaks rather than running again). -/
theorem C6_categories_loop_at_most_three (newElem : Elem)
    (nameTf : Val → Val) (oracle : Int → SaveOutcome)
    (response_json : List Data) (st : Table) (npk : Nat) (r : CatLoopResult)
    (h : refresh_store_categories_loop newElem nameTf oracle response_json st
      npk = some r) :
    r.missingLog.length ≤ 3 ∧ 1 ≤ r.missingLog.length ∧
    ((∃ m1, r.missingLog = [m1] ∧ m1 = [] ∧ r.loop_email = false) ∨
     (∃ m1 m2, r.missingLog = [m1, m2] ∧ m1 ≠ [] ∧ m2 = [] ∧
       r.loop_email = false) ∨
     (∃ m1 m2 m3, r.missingLog = [m1, m2, m3] ∧ m1 ≠ [] ∧ m2 ≠ [] ∧
       (r.loop_email = true ↔ m3 ≠ []))) := by
  obtain ⟨ms, mlast, hlog, hne, hlen, hlast, hmail⟩ :=
    catLoopAux_spec newElem nameTf oracle response_json 2 st npk false 0 [] r h
  rw [List.nil_append] at hlog
  match ms, hlen with
  | [], _ =>
    refine ⟨by rw [hlog]; simp, by rw [hlog]; simp, Or.inl ⟨mlast, hlog, ?_, ?_⟩⟩
    · exact hlast (by simp)
    · cases hle : r.loop_email
      · rfl
      · obtain ⟨hl2, _⟩ := hmail.mp hle
        simp at hl2
  | [m1], _ =>
    refine ⟨by rw [hlog]; simp, by rw [hlog]; simp,
      Or.inr (Or.inl ⟨m1, mlast, hlog, hne m1 (by simp), ?_, ?_⟩)⟩
    · exact hlast (by simp)
    · cases hle : r.loop_email
      · rfl
      · obtain ⟨hl2, _⟩ := hmail.mp hle
        simp at hl2
  | [m1, m2], _ =>
    refine ⟨by rw [hlog]; simp, by rw [hlog]; simp,
      Or.inr (Or.inr ⟨m1, m2, mlast, hlog, hne m1 (by simp),
        hne m2 (by simp), ?_⟩)⟩
    rw [hmail]
    simp
  | m1 :: m2 :: m3 :: ms', hlen => simp at hlen

/-- Witness for C6: an empty response reconciles in a single pass with no
missing ids and no alert email. -/
theorem C6_categories_loop_at_most_three_witness :
    (([[]] : List (List Int)).length ≤ 3) ∧
    ∃ m1, ([[]] : List (List Int)) = [m1] ∧ m1 = [] ∧ false = false := by
  have h := C6_categories_loop_at_most_three ⟨0, []⟩ (fun v => v) okOracle []
    [] 1 ⟨[], 1, false, 0, [[]], false⟩ (by decide)
  refine ⟨h.1, ?_⟩
  rcases h.2.2 with hc | hc | hc
  · exact hc
  · obtain ⟨m1, m2, hl, _⟩ := hc
    exact absurd hl (by simp)
  · obtain ⟨m1, m2, m3, hl, _⟩ := hc
    exact absurd hl (by simp)

end Weebly
